import Mathlib

/-!
Verification development for the QEMU broker core of LLVM-MCA-Daemon
(src/plugins/qemu-broker/Broker.cpp).  The broker receives translation
blocks and execution events from an emulator, disassembles blocks on first
execution, queues executable slices enriched with memory-access chains,
and services pull-based fetch requests that may split the queue head.

The embedding below models the data structures and operations of
Broker.cpp directly: machine integers are Nat with explicit `% 2 ^ w`
truncation at the points where the C++ code narrows (uint16_t slice
indices, uint8_t address offsets), decoded instructions are abstract
identifiers, and the external MCDisassembler is a decode oracle
parameter (bytes and address in, instruction and byte size out).
-/

namespace MCAD

/-- Decoded machine instructions (MCInst) are identified abstractly. -/
abbrev Inst := Nat

/-- Memory access descriptor (mca::MDMemoryAccess). -/
structure MDMemoryAccess where
  isStore : Bool
  addr : Nat
  size : Nat
deriving DecidableEq

/-- Instruction index (in the TB) paired with a memory access descriptor
(MemoryAccessEntry in Broker.cpp). -/
abbrev MemoryAccessEntry := Nat × MDMemoryAccess

/-- MemoryAccessChain from Broker.cpp; the indices are kept sorted by the
producer. -/
abbrev MemoryAccessChain := List MemoryAccessEntry

/-- A user-declared binary region (qemu_broker::BinaryRegion): a named
half-open interval, addresses relative to the load address. -/
structure BinaryRegion where
  startAddr : Nat
  endAddr : Nat
  description : String
deriving DecidableEq

/-- TranslationBlock from Broker.cpp: raw instruction bytes, lazily decoded
MCInsts, the raw-to-decoded skew map (an association list, mirroring the
DenseMap), the virtual start address, and per-MCInst byte offsets
(uint8_t in the source, hence values below 256). -/
structure TranslationBlock where
  rawInsts : List (List Nat)
  mcInsts : List Inst
  skewIndices : List (Nat × Nat)
  vaddr : Nat
  vaddrOffsets : List Nat
deriving DecidableEq

instance : Inhabited TranslationBlock := ⟨⟨[], [], [], 0, []⟩⟩

/-- TBSlice from Broker.cpp: a half-open `[beginIdx, endIdx)` view into the
decoded sequence of the TB at `index`.  `beginIdx` and `endIdx` are
uint16_t in the source; `region` is non-none iff the slice ends a region;
`memoryAccesses` models the owned chain pointer (none = nullptr). -/
structure TBSlice where
  index : Nat
  beginIdx : Nat
  endIdx : Nat
  region : Option BinaryRegion
  memoryAccesses : Option MemoryAccessChain
deriving DecidableEq

/-- TBSlice::split(SplitPoint): returns the new front slice
`[beginIdx, p)` and the updated remainder `[p, endIdx)`.  The chain is cut
at `llvm::lower_bound(*MemoryAccesses, p)` — the first entry whose index
is not below `p` — and transferred ONLY when that position is not the end
of the chain (this guard in the source is what claim C2 exercises).
On the sorted chains the broker builds, the lower_bound position is the
boundary between the `takeWhile` prefix and the `dropWhile` suffix. -/
def TBSlice.split (s : TBSlice) (p : Nat) : TBSlice × TBSlice :=
  let cut : Option MemoryAccessChain × Option MemoryAccessChain :=
    match s.memoryAccesses with
    | none => (none, none)
    | some c =>
      let suffix := c.dropWhile (fun e => decide (e.fst < p))
      if suffix.isEmpty then (none, some c)
      else (some (c.takeWhile (fun e => decide (e.fst < p))), some suffix)
  (⟨s.index, s.beginIdx, p, s.region, cut.fst⟩,
   ⟨s.index, p, s.endIdx, s.region, cut.snd⟩)

/-- Merge of two memory accesses on the same instruction index, as in
QemuBroker::tbExec: the store flags are ORed, the address becomes the
minimum, and the size spans to the larger end address — computed in the
machine arithmetic of the source: the end-address sums
`uint64_t(MA.Addr + MA.Size)` / `uint64_t(Addr + Size)` are uint64 and
wrap modulo `2 ^ 64`, the uint64 difference `NewEndAddr - NewAddr` wraps
modulo `2 ^ 64`, and `unsigned NewSize` narrows it modulo `2 ^ 32`. -/
def mergeMA (old fresh : MDMemoryAccess) : MDMemoryAccess :=
  ⟨old.isStore || fresh.isStore,
   min old.addr fresh.addr,
   ((2 ^ 64 + max ((old.addr + old.size) % 2 ^ 64)
       ((fresh.addr + fresh.size) % 2 ^ 64) -
     (min old.addr fresh.addr) % 2 ^ 64) % 2 ^ 64) % 2 ^ 32⟩

/-- SkewIndicies lookup used by tbExec: `count` followed by `lookup`;
an absent key leaves the index unchanged. -/
def skewLookup (skew : List (Nat × Nat)) (k : Nat) : Nat :=
  match skew.find? (fun e => decide (e.fst = k)) with
  | some e => e.snd
  | none => k

/-- One incoming memory-access record of an ExecTB message
(fbs::MemoryAccess). -/
structure FbMemAccess where
  index : Nat
  isStore : Bool
  vaddr : Nat
  size : Nat
deriving DecidableEq

/-- One step of the chain-construction loop in QemuBroker::tbExec: if the
back of the chain already has this (skew-translated) index, merge into it;
otherwise append a fresh entry. -/
def chainPush (chain : MemoryAccessChain) (idx : Nat) (ma : MDMemoryAccess) :
    MemoryAccessChain :=
  match chain.getLast? with
  | some last =>
    if last.fst = idx then chain.dropLast ++ [(idx, mergeMA last.snd ma)]
    else chain ++ [(idx, ma)]
  | none => [(idx, ma)]

/-- The full chain-construction loop of QemuBroker::tbExec over the
incoming access records, translating indices through the skew map. -/
def buildChain (skew : List (Nat × Nat)) (mas : List FbMemAccess) :
    MemoryAccessChain :=
  mas.foldl
    (fun c fb => chainPush c (skewLookup skew fb.index)
      ⟨fb.isStore, fb.vaddr, fb.size⟩) []

/-- The decode oracle abstracting MCDisassembler::getInstruction: given the
remaining bytes of a raw instruction and the virtual address, either fail
or yield a decoded instruction and its reported byte size. -/
abbrev Decoder := List Nat → Nat → Option (Inst × Nat)

/-- The inner decode loop of QemuBroker::disassemble for one raw
instruction, fuel-indexed (none = fuel ran out; the fuel `raw.length`
always suffices, which is claim C10).  A reported size of zero is
normalized to one before advancing.  Offsets are recorded into uint8_t
storage, hence the `% 256`. -/
def decodeOneF (decode : Decoder) (raw : List Nat) (vaddrBase startV : Nat) :
    Nat → Nat → Option (List (Inst × Nat))
  | 0, idx => if idx < raw.length then none else some []
  | fuel + 1, idx =>
    if idx < raw.length then
      match decode (raw.drop idx) (vaddrBase + idx) with
      | none => some []
      | some (inst, rawSz) =>
        let sz := if rawSz = 0 then 1 else rawSz
        match decodeOneF decode raw vaddrBase startV fuel (idx + sz) with
        | none => none
        | some rest =>
          some ((inst, (vaddrBase + idx - startV) % 256) :: rest)
    else some []

/-- Decode one raw instruction completely (fuel `raw.length` suffices by
claim C10, so the default branch is unreachable). -/
def decodeRaw (decode : Decoder) (raw : List Nat) (vaddrBase startV : Nat) :
    List (Inst × Nat) :=
  (decodeOneF decode raw vaddrBase startV raw.length 0).getD []

/-- The per-raw-instruction outer loop of QemuBroker::disassemble,
threading the raw index, the skew offset and the running virtual
address.  A skew entry `(rawIdx, rawIdx + skewOff)` is written at the TOP
of each iteration whenever the skew offset is already positive. -/
def disassembleGo (decode : Decoder) (startV : Nat) :
    List (List Nat) → Nat → Nat → Nat → TranslationBlock → TranslationBlock
  | [], _, _, _, tb => tb
  | raw :: rest, rawIdx, skewOff, vaddrBase, tb =>
    let tb1 :=
      if 0 < skewOff then
        { tb with skewIndices := tb.skewIndices ++ [(rawIdx, rawIdx + skewOff)] }
      else tb
    let ds := decodeRaw decode raw vaddrBase startV
    let tb2 :=
      { tb1 with
        mcInsts := tb1.mcInsts ++ ds.map Prod.fst,
        vaddrOffsets := tb1.vaddrOffsets ++ ds.map Prod.snd }
    disassembleGo decode startV rest (rawIdx + 1) (skewOff + (ds.length - 1))
      (vaddrBase + raw.length) tb2

/-- QemuBroker::disassemble: no-op on an already translated TB; otherwise
decode all raw instructions starting from the (LSB-masked, on ARM) virtual
start address. -/
def disassemble (decode : Decoder) (isArm : Bool) (tb : TranslationBlock) :
    TranslationBlock :=
  if tb.mcInsts.isEmpty then
    let startV := if isArm then tb.vaddr - tb.vaddr % 2 else tb.vaddr
    disassembleGo decode startV tb.rawInsts 0 0 startV tb
  else tb

/-- BinaryRegions::lookup.  Modelled from the spec: BinaryRegions.h is not
under src/; per the spec the Region Tracker scans for "the first i whose
address matches a known region's start", with the first manifest entry
winning on conflict, so lookup returns the first region whose start
address equals the queried address. -/
def lookupRegion (regions : List BinaryRegion) (a : Nat) :
    Option BinaryRegion :=
  regions.find? (fun r => decide (r.startAddr = a))

/-- The region-entry scan of QemuBroker::tbExec: the first offset position
(counting from `i`) whose address is the start of some region. -/
def findStart (regions : List BinaryRegion) (va : Nat) :
    List Nat → Nat → Option (Nat × BinaryRegion)
  | [], _ => none
  | off :: rest, i =>
    match lookupRegion regions (va + off) with
    | some r => some (i, r)
    | none => findStart regions va rest (i + 1)

/-- The region-exit scan of QemuBroker::tbExec: the first offset position
(counting from `i`) whose address equals the current region's end. -/
def findEnd (r : BinaryRegion) (va : Nat) :
    List Nat → Nat → Option Nat
  | [], _ => none
  | off :: rest, i =>
    if r.endAddr = va + off then some i
    else findEnd r va rest (i + 1)

/-- The region bookkeeping of QemuBroker::tbExec when a non-empty region
manifest is loaded.  Returns `(beginIdx, endIdx, sliceRegion, curRegion)`
exactly as the source computes them: `beginIdx`/`endIdx` are stored into
uint16_t (hence `% 2 ^ 16`), `endIdx` starts at the sentinel 0xFFFF, and
the exit scan resumes at the position where the entry scan stopped. -/
def regionCalc (regions : List BinaryRegion) (curReg : Option BinaryRegion)
    (codeStart vaddr : Nat) (offs : List Nat) :
    Nat × Nat × Option BinaryRegion × Option BinaryRegion :=
  match curReg with
  | none =>
    if codeStart ≤ vaddr then
      match findStart regions (vaddr - codeStart) offs 0 with
      | some (i0, r) =>
        match findEnd r (vaddr - codeStart) (offs.drop i0) i0 with
        | some i1 => (i0 % 65536, (i1 + 1) % 65536, some r, none)
        | none => (i0 % 65536, 65535, none, some r)
      | none => (65535, 65535, none, none)
    else (65535, 65535, none, none)
  | some r =>
    if codeStart ≤ vaddr then
      match findEnd r (vaddr - codeStart) offs 0 with
      | some i1 => (0, (i1 + 1) % 65536, some r, none)
      | none => (0, 65535, none, some r)
    else (0, 65535, none, some r)

/-- The mutable broker state shared between the receiver and the fetch
engine: the TB cache, the slice queue, the end-of-stream flag, the
current-region tracker state, the load address, the (immutable) region
manifest, and the trace sequence counter. -/
structure BrokerState where
  tbs : List (Option TranslationBlock)
  tbQueue : List TBSlice
  isEndOfStream : Bool
  curBinRegion : Option BinaryRegion
  codeStartAddress : Nat
  binRegions : Option (List BinaryRegion)
  totalNumTraces : Nat
deriving DecidableEq

/-- The initial broker state (constructor of QemuBroker). -/
def initState (regions : Option (List BinaryRegion)) : BrokerState :=
  ⟨[], [], false, none, 0, regions, 0⟩

/-- The ExecTB sentinel index (~uint32_t(0)). -/
def sentinelIdx : Nat := 4294967295

/-- The ExecTB sentinel PC (~uint64_t(0)). -/
def sentinelPC : Nat := 18446744073709551615

/-- One wire message after verification (fbs::Message): LoadMetadata,
TranslatedBlock registration, or an execution event (whose sentinel value
encodes end-of-stream). -/
inductive Event where
  | metadata (loadAddr : Nat)
  | translatedBlock (index : Nat) (insts : List (List Nat))
  | execTB (index : Nat) (pc : Nat) (memAccesses : List FbMemAccess)
deriving DecidableEq

/-- QemuBroker::addTB: grow the cache if needed, then register (or
replace) the block at its index. -/
def addTB (tbs : List (Option TranslationBlock)) (idx : Nat)
    (insts : List (List Nat)) : List (Option TranslationBlock) :=
  let grown :=
    if tbs.length ≤ idx then tbs ++ List.replicate (idx + 1 - tbs.length) none
    else tbs
  grown.set idx (some ⟨insts, [], [], 0, []⟩)

/-- The translation block tbExec works with: the cached block, lazily
disassembled on first execution with the PC captured as the virtual start
address (and the ARM mode bit masked off afterwards). -/
def tbExecTB (decode : Decoder) (isArm : Bool) (tb0 : TranslationBlock)
    (pc : Nat) : TranslationBlock :=
  if tb0.mcInsts.isEmpty then
    let tb1 := disassemble decode isArm { tb0 with vaddr := pc }
    if isArm then { tb1 with vaddr := tb1.vaddr - tb1.vaddr % 2 } else tb1
  else tb0

/-- The region bookkeeping of tbExec: active only when a non-empty region
manifest is loaded, otherwise the whole block `[0, 0xFFFF)` is taken. -/
def tbExecRC (st : BrokerState) (tb : TranslationBlock) :
    Nat × Nat × Option BinaryRegion × Option BinaryRegion :=
  match st.binRegions with
  | some rl =>
    if rl.isEmpty then (0, 65535, none, st.curBinRegion)
    else regionCalc rl st.curBinRegion st.codeStartAddress tb.vaddr
      tb.vaddrOffsets
  | none => (0, 65535, none, st.curBinRegion)

/-- The state after tbExec writes the (possibly freshly disassembled)
block back into the cache. -/
def tbExecSt1 (decode : Decoder) (isArm : Bool) (st : BrokerState)
    (idx pc : Nat) (tb0 : TranslationBlock) : BrokerState :=
  { st with tbs := st.tbs.set idx (some (tbExecTB decode isArm tb0 pc)) }

/-- The body of tbExec for a registered block: write back the block,
compute the region bounds, and queue the slice unless it is empty. -/
def tbExecGo (decode : Decoder) (isArm : Bool) (st : BrokerState)
    (idx pc : Nat) (mas : List FbMemAccess) (tb0 : TranslationBlock) :
    BrokerState :=
  let tb := tbExecTB decode isArm tb0 pc
  let st1 := tbExecSt1 decode isArm st idx pc tb0
  let rc := tbExecRC st1 tb
  let st2 := { st1 with curBinRegion := rc.snd.snd.snd }
  if rc.fst = rc.snd.fst then st2
  else
    let chain :=
      if mas.isEmpty then none else some (buildChain tb.skewIndices mas)
    { st2 with
      tbQueue :=
        st2.tbQueue ++ [⟨idx, rc.fst, rc.snd.fst, rc.snd.snd.fst, chain⟩] }

/-- QemuBroker::tbExec: sentinel handling, index validation, lazy
disassembly, region bookkeeping, chain construction, and queueing of the
resulting slice.  An empty slice (beginIdx = endIdx) is dropped before
the chain is built. -/
def tbExec (decode : Decoder) (isArm : Bool) (st : BrokerState)
    (idx pc : Nat) (mas : List FbMemAccess) : BrokerState :=
  if idx = sentinelIdx ∧ pc = sentinelPC then
    { st with isEndOfStream := true }
  else
    match st.tbs.getD idx none with
    | none => st
    | some tb0 => tbExecGo decode isArm st idx pc mas tb0

/-- Dispatch of one verified wire message by the receiver loop
(QemuBroker::recvWorker). -/
def handleEvent (decode : Decoder) (isArm : Bool) (st : BrokerState)
    (ev : Event) : BrokerState :=
  match ev with
  | .metadata la => { st with codeStartAddress := la }
  | .translatedBlock idx insts => { st with tbs := addTB st.tbs idx insts }
  | .execTB idx pc mas => tbExec decode isArm st idx pc mas

/-- Run the receiver over a list of verified messages. -/
def runTrace (decode : Decoder) (isArm : Bool) (st : BrokerState)
    (evs : List Event) : BrokerState :=
  evs.foldl (handleEvent decode isArm) st

/-- Broker::RegionDescriptor: whether a region ended, and its
description. -/
structure RegionDescriptor where
  isEnd : Bool
  description : String
deriving DecidableEq

/-- Result of the slice-selection loop in QemuBroker::fetchRegion: the
selected slices and the remaining queue.  Fuel-indexed because the source
loop spins forever on a queue head whose TB index is invalid (none models
both that divergence and fuel exhaustion). -/
def fetchLoop (tbs : List (Option TranslationBlock)) :
    Nat → Nat → List TBSlice → Option (List TBSlice × List TBSlice)
  | 0, _, _ => none
  | _ + 1, 0, queue => some ([], queue)
  | fuel + 1, s + 1, queue =>
    match queue with
    | [] => some ([], [])
    | cur :: rest =>
      match tbs.getD cur.index none with
      | some tb =>
        let sliceLen := min tb.mcInsts.length (cur.endIdx - cur.beginIdx)
        if s + 1 < sliceLen then
          let pieces := cur.split ((cur.beginIdx + (s + 1)) % 65536)
          some ([{ pieces.fst with region := none }], pieces.snd :: rest)
        else
          if cur.region.isSome then some ([cur], rest)
          else
            match fetchLoop tbs fuel (s + 1 - sliceLen) rest with
            | none => none
            | some (sel, q) => some (cur :: sel, q)
      | none => fetchLoop tbs fuel (s + 1) (cur :: rest)

/-- Result of delivering the instructions of one selected slice. -/
structure DeliverResult where
  insts : List Inst
  md : List (Inst × Nat × MDMemoryAccess)
  seq : Nat
  sizeLeft : Nat
deriving DecidableEq

/-- The per-slice delivery loop of QemuBroker::fetchRegion: hand out
MCInsts from `i` until the clipped end index or until the remaining size
budget runs out, incrementing the broker-wide trace counter per
instruction, and publishing (and consuming) the memory-access entry whose
index equals the current position.  Out-of-bounds positions model the
source's unchecked indexing by a default instruction. -/
def deliverSlice (mc : List Inst) (endI : Nat) :
    Nat → Nat → Nat → MemoryAccessChain → DeliverResult
  | _, seq, 0, _ => ⟨[], [], seq, 0⟩
  | i, seq, sz + 1, chain =>
    if i = endI then ⟨[], [], seq, sz + 1⟩
    else
      let inst := mc.getD i 0
      let seq1 := seq + 1
      let step : List (Inst × Nat × MDMemoryAccess) × MemoryAccessChain :=
        match chain with
        | (j, ma) :: rest =>
          if j = i then ([(inst, seq1, ma)], rest) else ([], chain)
        | [] => ([], [])
      let rest := deliverSlice mc endI (i + 1) seq1 sz step.snd
      ⟨inst :: rest.insts, step.fst ++ rest.md, rest.seq, rest.sizeLeft⟩

/-- Delivery over all selected slices (the chain of each slice is released
afterwards, so its leftover is dropped). -/
def deliverSlices (tbs : List (Option TranslationBlock)) :
    List TBSlice → Nat → Nat → DeliverResult
  | [], seq, sz => ⟨[], [], seq, sz⟩
  | s :: rest, seq, sz =>
    let mc := ((tbs.getD s.index none).getD default).mcInsts
    let endI := min mc.length s.endIdx
    let r1 := deliverSlice mc endI s.beginIdx seq sz
      (s.memoryAccesses.getD [])
    let r2 := deliverSlices tbs rest r1.seq r1.sizeLeft
    ⟨r1.insts ++ r2.insts, r1.md ++ r2.md, r2.seq, r2.sizeLeft⟩

/-- Everything QemuBroker::fetchRegion produces: the return count, the
region descriptor, the successor state, the instructions written to the
output buffer, and the metadata published to the side-channel. -/
structure FetchOutcome where
  ret : Int
  region : RegionDescriptor
  stateAfter : BrokerState
  delivered : List Inst
  md : List (Inst × Nat × MDMemoryAccess)
deriving DecidableEq

/-- QemuBroker::fetchRegion.  `none` models the blocking wait on the
condition variable (queue empty without end-of-stream; no producer runs in
this snapshot semantics) and the divergence on an invalid queue head.
Size is clamped to the output buffer length; an empty queue at
end-of-stream yields `(-1, end-of-stream)`. -/
def fetchRegion (st : BrokerState) (bufLen : Nat) (size : Int) :
    Option FetchOutcome :=
  if size = 0 then some ⟨0, ⟨false, ""⟩, st, [], []⟩
  else
    let sz : Nat := if size < 0 ∨ (bufLen : Int) < size then bufLen
      else size.toNat
    if st.tbQueue.isEmpty then
      if st.isEndOfStream then some ⟨-1, ⟨true, ""⟩, st, [], []⟩ else none
    else
      match fetchLoop st.tbs (sz + st.tbQueue.length + 1) sz st.tbQueue with
      | none => none
      | some (sel, q) =>
        let d := deliverSlices st.tbs sel st.totalNumTraces sz
        let rd : RegionDescriptor :=
          match sel.getLast? with
          | some last =>
            match last.region with
            | some r => ⟨true, r.description⟩
            | none => ⟨false, ""⟩
          | none => ⟨false, ""⟩
        some ⟨(sz : Int) - (d.sizeLeft : Int), rd,
          { st with tbQueue := q, totalNumTraces := d.seq }, d.insts, d.md⟩

/-- QemuBroker::fetch: literally `fetchRegion(MCIS, Size, MDE).first`,
with the same effects on the queue, the buffer and the metadata
side-channel. -/
def fetch (st : BrokerState) (bufLen : Nat) (size : Int) :
    Option (Int × BrokerState × List Inst ×
      List (Inst × Nat × MDMemoryAccess)) :=
  (fetchRegion st bufLen size).map
    (fun o => (o.ret, o.stateAfter, o.delivered, o.md))

/-- Repeated single-instruction fetches, concatenating what they
deliver. -/
def fetchSingles (bufLen : Nat) : Nat → BrokerState → List Inst
  | 0, _ => []
  | k + 1, st =>
    match fetchRegion st bufLen 1 with
    | none => []
    | some o => o.delivered ++ fetchSingles bufLen k o.stateAfter

/-- The instructions a slice stands for, for specification purposes:
the decoded sequence of its TB restricted to `[beginIdx, endIdx)`. -/
def sliceInsts (tbs : List (Option TranslationBlock)) (s : TBSlice) :
    List Inst :=
  ((((tbs.getD s.index none).getD default).mcInsts).take s.endIdx).drop
    s.beginIdx

/-- The instruction stream a whole queue stands for. -/
def queueInsts (tbs : List (Option TranslationBlock))
    (q : List TBSlice) : List Inst :=
  (q.map (sliceInsts tbs)).flatten

/-- Well-formedness of a queued slice used by the round-trip theorem:
its TB is registered, the bounds are proper and within the decoded
sequence (and within uint16_t range), and it carries no region-end
marker. -/
def wfSliceB (tbs : List (Option TranslationBlock)) (s : TBSlice) : Bool :=
  match tbs.getD s.index none with
  | some tb =>
    decide (s.beginIdx < s.endIdx) &&
    decide (s.endIdx ≤ tb.mcInsts.length) &&
    decide (s.endIdx ≤ 65535) && s.region.isNone
  | none => false

/-- A queued slice refers to a registered TB cache entry. -/
def registeredB (tbs : List (Option TranslationBlock)) (s : TBSlice) :
    Bool :=
  (tbs.getD s.index none).isSome

/-- Total byte count of the raw instructions of a block. -/
def byteSum (raws : List (List Nat)) : Nat :=
  (raws.map List.length).sum

/-- Size bound on a cached TB used by the bounds invariant: the offset
table fits uint16_t, and an untranslated block is pristine and small
enough that its decoded form will also fit. -/
def wfTBB (tb : TranslationBlock) : Bool :=
  decide (tb.vaddrOffsets.length ≤ 65535) &&
    (!tb.mcInsts.isEmpty ||
      (tb.vaddrOffsets.isEmpty && decide (byteSum tb.rawInsts ≤ 65535)))

/-- All registered cache entries satisfy `wfTBB`. -/
def wfTBsB (tbs : List (Option TranslationBlock)) : Bool :=
  tbs.all (fun otb => match otb with | some tb => wfTBB tb | none => true)

/-- Events whose TranslatedBlock payloads respect the uint16_t budget. -/
def wfEventB (ev : Event) : Bool :=
  match ev with
  | .translatedBlock _ insts => decide (byteSum insts ≤ 65535)
  | _ => true

/-- The (amended) queued-slice bounds invariant: proper non-empty bounds,
within uint16_t range. -/
def queueBEB (st : BrokerState) : Bool :=
  st.tbQueue.all
    (fun s => decide (s.beginIdx < s.endIdx) && decide (s.endIdx ≤ 65535))

/-- Every queued slice refers to a registered cache entry. -/
def regQueueB (st : BrokerState) : Bool :=
  st.tbQueue.all (registeredB st.tbs)

/-- Events that the receiver processes without queueing a slice:
metadata, block registration, the end-of-stream sentinel, and execution
events whose TB index is invalid. -/
def nonProducing (st : BrokerState) (ev : Event) : Prop :=
  match ev with
  | .metadata _ => True
  | .translatedBlock _ _ => True
  | .execTB idx pc _ =>
    (idx = sentinelIdx ∧ pc = sentinelPC) ∨ st.tbs.getD idx none = none

/-! Concrete inputs used by the witness and counterexample theorems. -/

/-- A decoder that turns every byte 1 into instruction 7 of size one and
fails on anything else. -/
def dec1 : Decoder := fun bytes _ =>
  match bytes with
  | 1 :: _ => some (7, 1)
  | _ => none

/-- A decoder that always fails. -/
def dec9 : Decoder := fun _ _ => none

/-- An empty broker with no region manifest. -/
def exInit : BrokerState := initState none

/-- Register a two-instruction block and execute it (no regions
configured). -/
def exStateC1 : BrokerState :=
  runTrace dec1 false exInit [.translatedBlock 0 [[1], [1]], .execTB 0 100 []]

/-- Register a one-instruction block, then receive the end-of-stream
sentinel. -/
def exStateC5 : BrokerState :=
  runTrace dec1 false exInit
    [.translatedBlock 0 [[1]], .execTB sentinelIdx sentinelPC []]

/-- Register a block whose bytes the decoder rejects, then execute it. -/
def exStateC9 : BrokerState :=
  runTrace dec9 false exInit [.translatedBlock 0 [[9]], .execTB 0 100 []]

/-- A block whose first raw instruction decodes into two MCInsts and whose
second raw instruction fails to decode. -/
def exTBC4 : TranslationBlock := ⟨[[1, 1], [9]], [], [], 100, []⟩

/-- A slice whose whole memory-access chain lies below split point 2. -/
def exSliceC2 : TBSlice := ⟨0, 0, 4, none, some [(0, ⟨true, 32, 4⟩)]⟩

/-- A slice with chain entries on both sides of split point 2. -/
def exSliceC2b : TBSlice :=
  ⟨0, 0, 4, none, some [(0, ⟨true, 32, 4⟩), (2, ⟨false, 64, 8⟩)]⟩

/-- A declared binary region. -/
def exRegion : BinaryRegion := ⟨0, 8, "r"⟩

/-- Two decoded blocks used by the fetch round-trip examples. -/
def exTBsC7 : List (Option TranslationBlock) :=
  [some ⟨[], [10, 11], [], 0, [0, 1]⟩, some ⟨[], [20], [], 0, [0]⟩]

/-- A queue whose head slice ends a region, followed by another slice. -/
def exStateC7 : BrokerState :=
  ⟨exTBsC7, [⟨0, 0, 2, some exRegion, none⟩, ⟨1, 0, 1, none, none⟩],
    true, none, 0, some [exRegion], 0⟩

/-- The same queue without region markers. -/
def exStateC7b : BrokerState :=
  ⟨exTBsC7, [⟨0, 0, 2, none, none⟩, ⟨1, 0, 1, none, none⟩],
    true, none, 0, none, 0⟩

/-- An empty queue at end-of-stream. -/
def exStateC6 : BrokerState := ⟨[], [], true, none, 0, none, 5⟩

/-- A state with one registered (not yet executed) block. -/
def exStateC1b : BrokerState :=
  runTrace dec1 false exInit [.translatedBlock 0 [[1], [1]]]

/-! ### Helper lemmas -/

theorem chain_takeWhile_eq_filter (p : Nat) (c : MemoryAccessChain)
    (hs : c.Pairwise (fun a b => a.fst < b.fst)) :
    c.takeWhile (fun e => decide (e.fst < p)) =
      c.filter (fun e => decide (e.fst < p)) := by
  induction c with
  | nil => rfl
  | cons e t ih =>
    rcases List.pairwise_cons.mp hs with ⟨hall, ht⟩
    by_cases hp : e.fst < p
    · rw [List.takeWhile_cons_of_pos (by simpa using hp),
        List.filter_cons_of_pos (by simpa using hp), ih ht]
    · rw [List.takeWhile_cons_of_neg (by simpa using hp),
        List.filter_cons_of_neg (by simpa using hp)]
      symm
      rw [List.filter_eq_nil_iff]
      intro a ha
      have := hall a ha
      simp only [decide_eq_true_eq]
      omega

theorem chain_dropWhile_eq_filter (p : Nat) (c : MemoryAccessChain)
    (hs : c.Pairwise (fun a b => a.fst < b.fst)) :
    c.dropWhile (fun e => decide (e.fst < p)) =
      c.filter (fun e => decide (p ≤ e.fst)) := by
  induction c with
  | nil => rfl
  | cons e t ih =>
    rcases List.pairwise_cons.mp hs with ⟨hall, ht⟩
    by_cases hp : e.fst < p
    · rw [List.dropWhile_cons_of_pos (by simpa using hp),
        List.filter_cons_of_neg (by simp; omega), ih ht]
    · rw [List.dropWhile_cons_of_neg (by simpa using hp),
        List.filter_cons_of_pos (by simp; omega)]
      congr 1
      symm
      rw [List.filter_eq_self]
      intro a ha
      have := hall a ha
      simp only [decide_eq_true_eq]
      omega

/-! ### C2 -/

/-- C2 (counterexample): splitting the slice whose chain is the single
entry at index 0 at point 2 does NOT move that entry to the new front
slice; the front slice gets no chain and the entry stays with the queued
tail, contradicting the claimed partition. -/
theorem C2_cex :
    ¬(((exSliceC2.split 2).fst.memoryAccesses.getD [] =
        [(0, ⟨true, 32, 4⟩)]) ∧
      ((exSliceC2.split 2).snd.memoryAccesses.getD [] =
        ([] : MemoryAccessChain))) := by decide

/-- C2 (amended): on an index-sorted chain, split at `p` partitions the
chain into the entries below `p` (front) and the entries at or above `p`
(tail) whenever some entry is at or above `p`; when every entry is below
`p`, the source's lower_bound guard leaves the whole chain with the
queued tail and the front slice carries none. -/
theorem C2_split_partitions (s : TBSlice) (c : MemoryAccessChain) (p : Nat)
    (hc : s.memoryAccesses = some c)
    (hs : c.Pairwise (fun a b => a.fst < b.fst)) :
    ((∃ e ∈ c, p ≤ e.fst) →
      (s.split p).fst.memoryAccesses =
        some (c.filter (fun e => decide (e.fst < p))) ∧
      (s.split p).snd.memoryAccesses =
        some (c.filter (fun e => decide (p ≤ e.fst)))) ∧
    ((∀ e ∈ c, e.fst < p) →
      (s.split p).fst.memoryAccesses = none ∧
      (s.split p).snd.memoryAccesses = some c) := by
  have hdw := chain_dropWhile_eq_filter p c hs
  have htw := chain_takeWhile_eq_filter p c hs
  constructor
  · rintro ⟨e, he, hpe⟩
    have hne : c.filter (fun e => decide (p ≤ e.fst)) ≠ [] := by
      intro hnil
      rw [List.filter_eq_nil_iff] at hnil
      exact hnil e he (by simpa using hpe)
    simp only [TBSlice.split, hc]
    rw [hdw]
    have : (c.filter (fun e => decide (p ≤ e.fst))).isEmpty = false := by
      cases hh : c.filter (fun e => decide (p ≤ e.fst)) with
      | nil => exact absurd hh hne
      | cons a t => rfl
    simp only [this, Bool.false_eq_true, if_false, htw]
    refine ⟨?_, ?_⟩ <;> first | rfl | trivial
  · intro hall
    have hnil : c.filter (fun e => decide (p ≤ e.fst)) = [] := by
      rw [List.filter_eq_nil_iff]
      intro a ha
      have := hall a ha
      simp only [decide_eq_true_eq]
      omega
    simp only [TBSlice.split, hc]
    rw [hdw, hnil]
    simp only [List.isEmpty_nil, if_true]
    refine ⟨?_, ?_⟩ <;> first | rfl | trivial

/-- C2 (witness): a chain with entries on both sides of split point 2 is
partitioned as the amended claim states. -/
theorem C2_witness :
    (exSliceC2b.memoryAccesses =
      some [(0, ⟨true, 32, 4⟩), (2, ⟨false, 64, 8⟩)]) ∧
    ((exSliceC2b.split 2).fst.memoryAccesses =
      some [(0, ⟨true, 32, 4⟩)] ∧
     (exSliceC2b.split 2).snd.memoryAccesses =
      some [(2, ⟨false, 64, 8⟩)]) := by
  refine ⟨rfl, ?_⟩
  have h := (C2_split_partitions exSliceC2b
    [(0, ⟨true, 32, 4⟩), (2, ⟨false, 64, 8⟩)] 2 rfl
    (by constructor <;> simp)).1
    ⟨(2, ⟨false, 64, 8⟩), by simp, by simp⟩
  simpa using h

/-! ### C3 -/

theorem chainPush_getLast (chain : MemoryAccessChain) (idx : Nat)
    (ma : MDMemoryAccess) (last : MemoryAccessEntry)
    (h : chain.getLast? = some last) (he : last.fst = idx) :
    chainPush chain idx ma = chain.dropLast ++ [(idx, mergeMA last.snd ma)] := by
  unfold chainPush
  rw [h]
  simp only [he, if_true]

theorem buildChain_append_one (skew : List (Nat × Nat))
    (mas : List FbMemAccess) (fb : FbMemAccess) :
    buildChain skew (mas ++ [fb]) =
      chainPush (buildChain skew mas) (skewLookup skew fb.index)
        ⟨fb.isStore, fb.vaddr, fb.size⟩ := by
  unfold buildChain
  rw [List.foldl_append]
  simp only [List.foldl_cons, List.foldl_nil]

/-- C3 (counterexample): the claimed exact size formula
max(addr1+size1, addr2+size2) - min(addr1, addr2) fails on in-range
inputs whose merged span does not fit 32 bits: a 4-byte store at 0x20
followed by a 4-byte load at 0x200000020 (8 GiB higher) on the same
instruction index has span 2^33 + 4 = 8589934596, but `unsigned NewSize`
narrows it to 8589934596 mod 2^32 = 4, so the merged entry carries
size 4, not 8589934596. -/
theorem C3_cex :
    buildChain [] [⟨0, true, 32, 4⟩, ⟨0, false, 8589934624, 4⟩] =
      [(0, ⟨true, 32, 4⟩)] ∧
    buildChain [] [⟨0, true, 32, 4⟩, ⟨0, false, 8589934624, 4⟩] ≠
      [(0, ⟨true, min 32 8589934624,
        max (32 + 4) (8589934624 + 4) - min 32 8589934624⟩)] := by
  decide

/-- C3 (amended): when a new access record translates (through the skew
map) to the same decoded index as the back of the chain, the
chain-construction step merges the two into one entry: is_store is the
OR, the address is the minimum, and the size spans from the minimum
address to the maximum end address — computed in the source's machine
arithmetic: the end-address sums and their difference from the minimum
address are uint64 (mod 2^64) and the stored size is narrowed to
unsigned (mod 2^32). This agrees with the claim's exact formula whenever
the merged span fits 32 bits. -/
theorem C3_merge_rule (skew : List (Nat × Nat)) (mas : List FbMemAccess)
    (fb : FbMemAccess) (di : Nat) (old : MDMemoryAccess)
    (h : (buildChain skew mas).getLast? = some (di, old))
    (ht : skewLookup skew fb.index = di) :
    buildChain skew (mas ++ [fb]) =
      (buildChain skew mas).dropLast ++
        [(di, ⟨old.isStore || fb.isStore, min old.addr fb.vaddr,
          ((2 ^ 64 + max ((old.addr + old.size) % 2 ^ 64)
              ((fb.vaddr + fb.size) % 2 ^ 64) -
            (min old.addr fb.vaddr) % 2 ^ 64) % 2 ^ 64) % 2 ^ 32⟩)] := by
  rw [buildChain_append_one, ht, chainPush_getLast _ _ _ _ h rfl]
  simp [mergeMA]

/-- C3 (witness): the spec's concrete instance: a store at [0x20, 0x24)
followed by a load at [0x22, 0x26) on the same instruction index merges
into is_store = true, addr = 0x20, size = 6 (the truncations are the
identity on these small values). -/
theorem C3_witness :
    ((buildChain [] [⟨0, true, 32, 4⟩]).getLast? =
      some (0, ⟨true, 32, 4⟩)) ∧
    (skewLookup [] (0 : Nat) = 0) ∧
    buildChain [] ([⟨0, true, 32, 4⟩] ++ [⟨0, false, 34, 4⟩]) =
      [(0, ⟨true, 32, 6⟩)] := by
  refine ⟨by decide, by decide, ?_⟩
  have h := C3_merge_rule [] [⟨0, true, 32, 4⟩] ⟨0, false, 34, 4⟩ 0
    ⟨true, 32, 4⟩ (by decide) (by decide)
  exact h.trans (by decide)

/-! ### C6 -/

/-- C6: a fetch of nonzero size on an empty queue with the end-of-stream
flag set returns (-1, EndOfStream) and delivers nothing. -/
theorem C6_eos_fetch (st : BrokerState) (bufLen : Nat) (size : Int)
    (hq : st.tbQueue = []) (he : st.isEndOfStream = true) (hs : size ≠ 0) :
    fetchRegion st bufLen size = some ⟨-1, ⟨true, ""⟩, st, [], []⟩ := by
  unfold fetchRegion
  rw [if_neg hs, hq]
  simp [he]

/-- C6 (witness): the concrete empty-queue end-of-stream state. -/
theorem C6_witness :
    fetchRegion exStateC6 4 2 = some ⟨-1, ⟨true, ""⟩, exStateC6, [], []⟩ :=
  C6_eos_fetch exStateC6 4 2 rfl rfl (by decide)

/-! ### C8 -/

/-- C8: fetch is exactly the first component of fetchRegion, with
identical effects on the queue, the delivered buffer and the metadata
side-channel (the source body is literally
`return fetchRegion(MCIS, Size, MDE).first`). -/
theorem C8_fetch_is_fetchRegion :
    ∀ (st : BrokerState) (bufLen : Nat) (size : Int),
      fetch st bufLen size = (fetchRegion st bufLen size).map
        (fun o => (o.ret, o.stateAfter, o.delivered, o.md)) :=
  fun _ _ _ => rfl

/-! ### C10 -/

/-- C10: the per-raw-instruction decode loop terminates: fuel equal to the
number of remaining bytes always suffices, because a reported size of
zero is normalized to one, so every iteration strictly advances the byte
offset, and the loop stops at the end of the raw instruction or at the
first decode failure. -/
theorem C10_decode_terminates (decode : Decoder) (raw : List Nat)
    (vaddrBase startV : Nat) :
    ∀ (fuel idx : Nat), raw.length - idx ≤ fuel →
      (decodeOneF decode raw vaddrBase startV fuel idx).isSome = true := by
  intro fuel
  induction fuel with
  | zero =>
    intro idx h
    unfold decodeOneF
    rw [if_neg (by omega)]
    rfl
  | succ n ih =>
    intro idx h
    unfold decodeOneF
    by_cases hidx : idx < raw.length
    · rw [if_pos hidx]
      cases hdec : decode (raw.drop idx) (vaddrBase + idx) with
      | none => rfl
      | some pr =>
        obtain ⟨inst, rawSz⟩ := pr
        have hge : 1 ≤ if rawSz = 0 then 1 else rawSz := by
          by_cases hz : rawSz = 0
          · simp [hz]
          · simp only [hz, if_false]
            omega
        have hrec := ih (idx + if rawSz = 0 then 1 else rawSz) (by omega)
        simp only
        cases hr : decodeOneF decode raw vaddrBase startV n
            (idx + if rawSz = 0 then 1 else rawSz) with
        | none => rw [hr] at hrec; exact absurd hrec (by simp)
        | some rest => rfl
    · rw [if_neg hidx]
      rfl

/-- C10 (witness): a concrete two-byte raw instruction with the working
decoder. -/
theorem C10_witness :
    (([1, 1] : List Nat).length - 0 ≤ 2) ∧
    (decodeOneF dec1 [1, 1] 100 100 2 0).isSome = true :=
  ⟨by decide, C10_decode_terminates dec1 [1, 1] 100 100 2 0 (by decide)⟩

/-! ### Counterexamples C1, C4, C5, C7, C9 -/

/-- C1 (counterexample): executing a two-instruction block with no regions
configured queues the slice (0, 65535); its end index exceeds the decoded
length 2, refuting `end_idx ≤ |decoded|` for queued slices. -/
theorem C1_cex :
    ¬(∀ s ∈ exStateC1.tbQueue,
        s.beginIdx < s.endIdx ∧
        s.endIdx ≤
          ((exStateC1.tbs.getD s.index none).getD default).mcInsts.length) := by
  decide

/-- C4 (counterexample): with a first raw instruction decoding into two
MCInsts and a second raw instruction failing to decode, disassembly leaves
a non-empty skew map although the decoded count (2) does not exceed the
raw count (2). -/
theorem C4_cex :
    (disassemble dec1 false exTBC4).skewIndices ≠ [] ∧
    ¬((disassemble dec1 false exTBC4).rawInsts.length <
      (disassemble dec1 false exTBC4).mcInsts.length) := by
  decide

/-- C5 (counterexample): after the end-of-stream sentinel has set the
flag, a subsequently processed valid ExecTB still appends a slice (tbExec
never consults the flag when queueing). -/
theorem C5_cex :
    exStateC5.isEndOfStream = true ∧
    (handleEvent dec1 false exStateC5 (.execTB 0 100 [])).tbQueue.length =
      exStateC5.tbQueue.length + 1 := by
  decide

/-- C7 (counterexample): with a region-ending slice at the queue head,
one fetch of the full queued count 3 stops at the region end and delivers
only two instructions, while three fetches of one instruction each deliver
all three — the concatenations differ. -/
theorem C7_cex :
    (queueInsts exStateC7.tbs exStateC7.tbQueue).length = 3 ∧
    (fetchRegion exStateC7 3 3).map FetchOutcome.delivered = some [10, 11] ∧
    fetchSingles 1 3 exStateC7 = [10, 11, 20] ∧
    ([10, 11, 20] : List Inst) ≠ [10, 11] := by
  decide

/-- C9 (counterexample): when the decoder rejects every byte of a
registered block, tbExec still queues a slice for it, so a queued slice
may refer to a TB whose decoded sequence is empty. -/
theorem C9_cex :
    exStateC9.tbQueue ≠ [] ∧
    ¬(∀ s ∈ exStateC9.tbQueue,
        ((exStateC9.tbs.getD s.index none).getD default).mcInsts ≠ []) := by
  decide

/-! ### C5 (amended) -/

/-- C5 (amended): after end-of-stream, metadata events, block
registrations, the sentinel itself, and execution events with an invalid
TB index append no slice; the source does not gate queueing on the flag,
so only a further valid non-sentinel ExecTB can still append (which the
counterexample exhibits). -/
theorem C5_no_slices_nonproducing (decode : Decoder) (isArm : Bool)
    (st : BrokerState) (ev : Event) (_heos : st.isEndOfStream = true)
    (h : nonProducing st ev) :
    (handleEvent decode isArm st ev).tbQueue = st.tbQueue := by
  cases ev with
  | metadata la => rfl
  | translatedBlock idx insts => rfl
  | execTB idx pc mas =>
    simp only [nonProducing] at h
    simp only [handleEvent, tbExec]
    rcases h with ⟨h1, h2⟩ | h
    · rw [if_pos ⟨h1, h2⟩]
    · by_cases hs : idx = sentinelIdx ∧ pc = sentinelPC
      · rw [if_pos hs]
      · rw [if_neg hs, h]

/-- C5 (witness): the sentinel processed at end-of-stream leaves the
queue unchanged. -/
theorem C5_witness :
    (handleEvent dec1 false exStateC5
      (.execTB sentinelIdx sentinelPC [])).tbQueue = exStateC5.tbQueue :=
  C5_no_slices_nonproducing dec1 false exStateC5
    (.execTB sentinelIdx sentinelPC []) (by decide) (Or.inl ⟨rfl, rfl⟩)


/-! ### C4 (amended) -/

theorem disassembleGo_skew_le (decode : Decoder) (startV : Nat)
    (raws : List (List Nat)) :
    ∀ (rawIdx skewOff vaddrBase : Nat) (tb : TranslationBlock),
      (∀ e ∈ tb.skewIndices, e.fst ≤ e.snd) →
      ∀ e ∈ (disassembleGo decode startV raws rawIdx skewOff vaddrBase
        tb).skewIndices, e.fst ≤ e.snd := by
  induction raws with
  | nil =>
    intro rawIdx skewOff vaddrBase tb h e he
    simp only [disassembleGo] at he
    exact h e he
  | cons raw rest ih =>
    intro rawIdx skewOff vaddrBase tb h e he
    simp only [disassembleGo] at he
    refine ih _ _ _ _ ?_ e he
    by_cases hz : 0 < skewOff
    · simp only [if_pos hz]
      intro e' he'
      rcases List.mem_append.mp he' with h1 | h2
      · exact h e' h1
      · have : e' = (rawIdx, rawIdx + skewOff) := List.mem_singleton.mp h2
        subst this
        exact Nat.le_add_right _ _
    · simp only [if_neg hz]
      exact h

theorem disassembleGo_skew_source (decode : Decoder) (startV : Nat)
    (raws : List (List Nat)) :
    ∀ (rawIdx skewOff vaddrBase : Nat) (tb : TranslationBlock),
      (disassembleGo decode startV raws rawIdx skewOff vaddrBase
        tb).skewIndices ≠ [] →
      tb.skewIndices ≠ [] ∨ 0 < skewOff ∨
        ∃ j, j < raws.length ∧
          2 ≤ (decodeRaw decode (raws.getD j [])
            (vaddrBase + byteSum (raws.take j)) startV).length := by
  induction raws with
  | nil =>
    intro rawIdx skewOff vaddrBase tb h
    simp only [disassembleGo] at h
    exact Or.inl h
  | cons raw rest ih =>
    intro rawIdx skewOff vaddrBase tb h
    simp only [disassembleGo] at h
    rcases ih _ _ _ _ h with h1 | h2 | ⟨j, hj, hdec⟩
    · by_cases hz : 0 < skewOff
      · exact Or.inr (Or.inl hz)
      · simp only [if_neg hz] at h1
        exact Or.inl h1
    · by_cases hz : 0 < skewOff
      · exact Or.inr (Or.inl hz)
      · have hz0 : skewOff = 0 := by omega
        have hlen : 2 ≤ (decodeRaw decode raw vaddrBase startV).length := by
          omega
        refine Or.inr (Or.inr ⟨0, by simp, ?_⟩)
        simpa [byteSum] using hlen
    · refine Or.inr (Or.inr ⟨j + 1, by simpa using hj, ?_⟩)
      have harith : vaddrBase + raw.length + byteSum (rest.take j) =
          vaddrBase + byteSum ((raw :: rest).take (j + 1)) := by
        simp [byteSum, List.take_succ_cons]
        omega
      simpa [harith] using hdec

/-- C4 (counterexample forces the amendment; amended): after disassembly
of a pristine block, every defined skew entry satisfies
`skew_map[k] ≥ k`, and the skew map is non-empty only if some raw
instruction decoded into more than one MCInst (when additionally no raw
instruction fails to decode, that makes `|decoded| > |raw|`; with decode
failures it need not, as the counterexample shows). -/
theorem C4_skew_invariant (decode : Decoder) (isArm : Bool)
    (tb : TranslationBlock) (hmc : tb.mcInsts = [])
    (hsk : tb.skewIndices = []) :
    (∀ e ∈ (disassemble decode isArm tb).skewIndices, e.fst ≤ e.snd) ∧
    ((disassemble decode isArm tb).skewIndices ≠ [] →
      ∃ j, j < tb.rawInsts.length ∧
        2 ≤ (decodeRaw decode (tb.rawInsts.getD j [])
          ((if isArm then tb.vaddr - tb.vaddr % 2 else tb.vaddr) +
            byteSum (tb.rawInsts.take j))
          (if isArm then tb.vaddr - tb.vaddr % 2 else tb.vaddr)).length) := by
  unfold disassemble
  rw [if_pos (by simp [hmc])]
  constructor
  · exact disassembleGo_skew_le decode _ tb.rawInsts 0 0 _ tb
      (by simp [hsk])
  · intro h
    rcases disassembleGo_skew_source decode _ tb.rawInsts 0 0 _ tb h with
      h1 | h2 | h3
    · exact absurd hsk h1
    · omega
    · exact h3

/-- C4 (witness): the two-raw-instruction block whose first raw
instruction decodes into two MCInsts. -/
theorem C4_witness :
    (exTBC4.mcInsts = [] ∧ exTBC4.skewIndices = []) ∧
    ((∀ e ∈ (disassemble dec1 false exTBC4).skewIndices,
        e.fst ≤ e.snd) ∧
      ((disassemble dec1 false exTBC4).skewIndices ≠ [] →
        ∃ j, j < exTBC4.rawInsts.length ∧
          2 ≤ (decodeRaw dec1 (exTBC4.rawInsts.getD j [])
            ((if false then exTBC4.vaddr - exTBC4.vaddr % 2
              else exTBC4.vaddr) + byteSum (exTBC4.rawInsts.take j))
            (if false then exTBC4.vaddr - exTBC4.vaddr % 2
              else exTBC4.vaddr)).length)) :=
  ⟨⟨rfl, rfl⟩, C4_skew_invariant dec1 false exTBC4 rfl rfl⟩


/-! ### Region scan bounds and the producer-side case analysis -/

theorem findStart_bound (regions : List BinaryRegion) (va : Nat) :
    ∀ (offs : List Nat) (i j : Nat) (r : BinaryRegion),
      findStart regions va offs i = some (j, r) →
      i ≤ j ∧ j < i + offs.length := by
  intro offs
  induction offs with
  | nil => intro i j r h; exact absurd h (by simp [findStart])
  | cons off rest ih =>
    intro i j r h
    unfold findStart at h
    cases hlk : lookupRegion regions (va + off) with
    | some r0 =>
      rw [hlk] at h
      injection h with h
      have h1 : i = j := congrArg Prod.fst h
      subst h1
      exact ⟨Nat.le_refl _, by simp⟩
    | none =>
      rw [hlk] at h
      have := ih (i + 1) j r h
      refine ⟨by omega, ?_⟩
      simp only [List.length_cons]
      omega

theorem findEnd_bound (r : BinaryRegion) (va : Nat) :
    ∀ (offs : List Nat) (i j : Nat),
      findEnd r va offs i = some j → i ≤ j ∧ j < i + offs.length := by
  intro offs
  induction offs with
  | nil => intro i j h; exact absurd h (by simp [findEnd])
  | cons off rest ih =>
    intro i j h
    unfold findEnd at h
    by_cases he : r.endAddr = va + off
    · rw [if_pos he] at h
      injection h with h
      subst h
      exact ⟨Nat.le_refl _, by simp⟩
    · rw [if_neg he] at h
      have := ih (i + 1) j h
      refine ⟨by omega, ?_⟩
      simp only [List.length_cons]
      omega

theorem regionCalc_be (regions : List BinaryRegion)
    (curReg : Option BinaryRegion) (codeStart vaddr : Nat)
    (offs : List Nat) (hS : offs.length ≤ 65535) :
    (regionCalc regions curReg codeStart vaddr offs).fst =
      (regionCalc regions curReg codeStart vaddr offs).snd.fst ∨
    ((regionCalc regions curReg codeStart vaddr offs).fst <
      (regionCalc regions curReg codeStart vaddr offs).snd.fst ∧
     (regionCalc regions curReg codeStart vaddr offs).snd.fst ≤ 65535) := by
  cases curReg with
  | none =>
    by_cases hcs : codeStart ≤ vaddr
    · cases hfs : findStart regions (vaddr - codeStart) offs 0 with
      | none =>
        simp only [regionCalc, if_pos hcs, hfs]
        exact Or.inl (by trivial)
      | some pr =>
        obtain ⟨i0, r⟩ := pr
        have hb0 := findStart_bound regions _ offs 0 i0 r hfs
        cases hfe : findEnd r (vaddr - codeStart) (offs.drop i0) i0 with
        | none =>
          simp only [regionCalc, if_pos hcs, hfs, hfe]
          have h0 : i0 % 65536 = i0 := Nat.mod_eq_of_lt (by omega)
          exact Or.inr ⟨by omega, by omega⟩
        | some i1 =>
          have hb1 := findEnd_bound r _ (offs.drop i0) i0 i1 hfe
          rw [List.length_drop] at hb1
          simp only [regionCalc, if_pos hcs, hfs, hfe]
          have h0 : i0 % 65536 = i0 := Nat.mod_eq_of_lt (by omega)
          have h1 : (i1 + 1) % 65536 = i1 + 1 :=
            Nat.mod_eq_of_lt (by omega)
          exact Or.inr ⟨by omega, by omega⟩
    · simp only [regionCalc, if_neg hcs]
      exact Or.inl (by trivial)
  | some r =>
    by_cases hcs : codeStart ≤ vaddr
    · cases hfe : findEnd r (vaddr - codeStart) offs 0 with
      | none =>
        simp only [regionCalc, if_pos hcs, hfe]
        exact Or.inr ⟨by omega, by omega⟩
      | some i1 =>
        have hb1 := findEnd_bound r _ offs 0 i1 hfe
        simp only [regionCalc, if_pos hcs, hfe]
        have h1 : (i1 + 1) % 65536 = i1 + 1 := Nat.mod_eq_of_lt (by omega)
        exact Or.inr ⟨by omega, by omega⟩
    · simp only [regionCalc, if_neg hcs]
      exact Or.inr ⟨by omega, by omega⟩

theorem tbExecRC_be (st : BrokerState) (tb : TranslationBlock)
    (hS : tb.vaddrOffsets.length ≤ 65535) :
    (tbExecRC st tb).fst = (tbExecRC st tb).snd.fst ∨
    ((tbExecRC st tb).fst < (tbExecRC st tb).snd.fst ∧
      (tbExecRC st tb).snd.fst ≤ 65535) := by
  cases hbr : st.binRegions with
  | none =>
    simp only [tbExecRC, hbr]
    exact Or.inr ⟨by omega, by omega⟩
  | some rl =>
    by_cases he : rl.isEmpty
    · simp only [tbExecRC, hbr, he, if_true]
      exact Or.inr ⟨by omega, by omega⟩
    · simp only [tbExecRC, hbr, he, Bool.false_eq_true, if_false]
      exact regionCalc_be rl st.curBinRegion st.codeStartAddress tb.vaddr
        tb.vaddrOffsets hS

theorem tbExec_eq_of_sentinel (decode : Decoder) (isArm : Bool)
    (st : BrokerState) (idx pc : Nat) (mas : List FbMemAccess)
    (hs : idx = sentinelIdx ∧ pc = sentinelPC) :
    tbExec decode isArm st idx pc mas = { st with isEndOfStream := true } := by
  unfold tbExec
  rw [if_pos hs]

theorem tbExec_eq_of_invalid (decode : Decoder) (isArm : Bool)
    (st : BrokerState) (idx pc : Nat) (mas : List FbMemAccess)
    (hs : ¬(idx = sentinelIdx ∧ pc = sentinelPC))
    (hget : st.tbs.getD idx none = none) :
    tbExec decode isArm st idx pc mas = st := by
  unfold tbExec
  rw [if_neg hs, hget]

theorem tbExec_eq_of_some (decode : Decoder) (isArm : Bool)
    (st : BrokerState) (idx pc : Nat) (mas : List FbMemAccess)
    (tb0 : TranslationBlock)
    (hs : ¬(idx = sentinelIdx ∧ pc = sentinelPC))
    (hget : st.tbs.getD idx none = some tb0) :
    tbExec decode isArm st idx pc mas = tbExecGo decode isArm st idx pc mas tb0 := by
  unfold tbExec
  rw [if_neg hs, hget]

/-! ### Size bookkeeping of disassembly -/

theorem decodeOneF_length_le (decode : Decoder) (raw : List Nat)
    (vaddrBase startV : Nat) :
    ∀ (fuel idx : Nat) (r : List (Inst × Nat)),
      decodeOneF decode raw vaddrBase startV fuel idx = some r →
      r.length ≤ raw.length - idx := by
  intro fuel
  induction fuel with
  | zero =>
    intro idx r h
    unfold decodeOneF at h
    by_cases hidx : idx < raw.length
    · rw [if_pos hidx] at h
      exact absurd h (by simp)
    · rw [if_neg hidx] at h
      injection h with h
      subst h
      simp
  | succ n ih =>
    intro idx r h
    unfold decodeOneF at h
    by_cases hidx : idx < raw.length
    · rw [if_pos hidx] at h
      cases hdec : decode (raw.drop idx) (vaddrBase + idx) with
      | none =>
        rw [hdec] at h
        injection h with h
        subst h
        simp
      | some pr =>
        obtain ⟨inst, rawSz⟩ := pr
        rw [hdec] at h
        simp only at h
        cases hr : decodeOneF decode raw vaddrBase startV n
            (idx + if rawSz = 0 then 1 else rawSz) with
        | none => rw [hr] at h; exact absurd h (by simp)
        | some rest =>
          rw [hr] at h
          injection h with h
          subst h
          have hrec := ih _ rest hr
          have hge : 1 ≤ if rawSz = 0 then 1 else rawSz := by
            by_cases hz : rawSz = 0
            · simp [hz]
            · simp only [hz, if_false]
              omega
          simp only [List.length_cons]
          omega
    · rw [if_neg hidx] at h
      injection h with h
      subst h
      simp

theorem decodeRaw_length_le (decode : Decoder) (raw : List Nat)
    (vaddrBase startV : Nat) :
    (decodeRaw decode raw vaddrBase startV).length ≤ raw.length := by
  unfold decodeRaw
  cases h : decodeOneF decode raw vaddrBase startV raw.length 0 with
  | none => simp
  | some r =>
    have := decodeOneF_length_le decode raw vaddrBase startV raw.length 0 r h
    simpa using this

theorem disassembleGo_raw (decode : Decoder) (startV : Nat)
    (raws : List (List Nat)) :
    ∀ (rawIdx skewOff vaddrBase : Nat) (tb : TranslationBlock),
      (disassembleGo decode startV raws rawIdx skewOff vaddrBase
        tb).rawInsts = tb.rawInsts := by
  induction raws with
  | nil => intro rawIdx skewOff vaddrBase tb; rfl
  | cons raw rest ih =>
    intro rawIdx skewOff vaddrBase tb
    simp only [disassembleGo]
    rw [ih]
    by_cases hz : 0 < skewOff <;> simp [hz]

theorem disassembleGo_offsets_le (decode : Decoder) (startV : Nat)
    (raws : List (List Nat)) :
    ∀ (rawIdx skewOff vaddrBase : Nat) (tb : TranslationBlock),
      (disassembleGo decode startV raws rawIdx skewOff vaddrBase
        tb).vaddrOffsets.length ≤
        tb.vaddrOffsets.length + byteSum raws := by
  induction raws with
  | nil =>
    intro rawIdx skewOff vaddrBase tb
    simp [disassembleGo, byteSum]
  | cons raw rest ih =>
    intro rawIdx skewOff vaddrBase tb
    simp only [disassembleGo]
    have hih := ih (rawIdx + 1)
      (skewOff + ((decodeRaw decode raw vaddrBase startV).length - 1))
      (vaddrBase + raw.length)
      (if 0 < skewOff then
        { { tb with
              skewIndices :=
                tb.skewIndices ++ [(rawIdx, rawIdx + skewOff)] } with
          mcInsts := ({ tb with
              skewIndices :=
                tb.skewIndices ++ [(rawIdx, rawIdx + skewOff)] }).mcInsts ++
            (decodeRaw decode raw vaddrBase startV).map Prod.fst,
          vaddrOffsets := ({ tb with
              skewIndices :=
                tb.skewIndices ++ [(rawIdx, rawIdx + skewOff)] }).vaddrOffsets ++
            (decodeRaw decode raw vaddrBase startV).map Prod.snd }
      else
        { tb with
          mcInsts := tb.mcInsts ++
            (decodeRaw decode raw vaddrBase startV).map Prod.fst,
          vaddrOffsets := tb.vaddrOffsets ++
            (decodeRaw decode raw vaddrBase startV).map Prod.snd })
    have hds := decodeRaw_length_le decode raw vaddrBase startV
    have hbs : byteSum (raw :: rest) = raw.length + byteSum rest := by
      simp [byteSum]
    by_cases hz : 0 < skewOff
    · simp only [if_pos hz] at hih ⊢
      simp only [List.length_append, List.length_map] at hih
      omega
    · simp only [if_neg hz] at hih ⊢
      simp only [List.length_append, List.length_map] at hih
      omega

/-! ### Cache access lemmas -/

theorem getD_set_some (tbs : List (Option TranslationBlock)) (idx : Nat)
    (tb : TranslationBlock) (j : Nat) :
    (tbs.set idx (some tb)).getD j none =
      if idx = j ∧ idx < tbs.length then some tb else tbs.getD j none := by
  rw [List.getD_eq_getElem?_getD, List.getD_eq_getElem?_getD,
    List.getElem?_set]
  by_cases h1 : idx = j
  · subst h1
    by_cases h2 : idx < tbs.length
    · simp [h2]
    · rw [List.getElem?_eq_none (Nat.le_of_not_lt h2)]
      simp [h2]
  · rw [if_neg h1, if_neg (by tauto)]

theorem mem_of_getD_some (tbs : List (Option TranslationBlock)) (j : Nat)
    (tb : TranslationBlock) (h : tbs.getD j none = some tb) :
    some tb ∈ tbs := by
  rw [List.getD_eq_getElem?_getD] at h
  cases hg : tbs[j]? with
  | none => rw [hg] at h; simp at h
  | some otb =>
    rw [hg] at h
    simp only [Option.getD_some] at h
    subst h
    exact List.getElem?_mem hg

theorem addTB_getD (tbs : List (Option TranslationBlock)) (idx : Nat)
    (insts : List (List Nat)) (j : Nat) :
    (addTB tbs idx insts).getD j none =
      if idx = j then some ⟨insts, [], [], 0, []⟩
      else tbs.getD j none := by
  unfold addTB
  by_cases hr : tbs.length ≤ idx
  · simp only [if_pos hr]
    rw [List.getD_eq_getElem?_getD, List.getD_eq_getElem?_getD,
      List.getElem?_set]
    have hlen : (tbs ++ List.replicate (idx + 1 - tbs.length) none).length =
        idx + 1 := by
      simp only [List.length_append, List.length_replicate]
      omega
    by_cases hj : idx = j
    · subst hj
      rw [if_pos rfl, if_pos (by omega), if_pos rfl]
      rfl
    · rw [if_neg hj, if_neg hj, List.getElem?_append]
      by_cases hjl : j < tbs.length
      · rw [if_pos hjl]
      · rw [if_neg hjl, List.getElem?_replicate]
        rw [List.getElem?_eq_none (by omega)]
        by_cases hin : j - tbs.length < idx + 1 - tbs.length
        · rw [if_pos hin]
          rfl
        · rw [if_neg hin]
  · simp only [if_neg hr]
    rw [List.getD_eq_getElem?_getD, List.getD_eq_getElem?_getD,
      List.getElem?_set]
    by_cases hj : idx = j
    · subst hj
      rw [if_pos rfl, if_pos (by omega), if_pos rfl]
      rfl
    · rw [if_neg hj, if_neg hj]

theorem wfTBs_getD (tbs : List (Option TranslationBlock)) (j : Nat)
    (tb : TranslationBlock) (hw : wfTBsB tbs = true)
    (h : tbs.getD j none = some tb) : wfTBB tb = true := by
  rw [wfTBsB, List.all_eq_true] at hw
  exact hw (some tb) (mem_of_getD_some tbs j tb h)

theorem wfTBs_set (tbs : List (Option TranslationBlock)) (idx : Nat)
    (tb : TranslationBlock) (hw : wfTBsB tbs = true)
    (ht : wfTBB tb = true) : wfTBsB (tbs.set idx (some tb)) = true := by
  rw [wfTBsB, List.all_eq_true] at hw ⊢
  intro otb hm
  rcases List.mem_or_eq_of_mem_set hm with h1 | h2
  · exact hw otb h1
  · subst h2
    exact ht

theorem wfTBs_addTB (tbs : List (Option TranslationBlock)) (idx : Nat)
    (insts : List (List Nat)) (hw : wfTBsB tbs = true)
    (hb : byteSum insts ≤ 65535) :
    wfTBsB (addTB tbs idx insts) = true := by
  unfold addTB
  rw [wfTBsB, List.all_eq_true] at hw ⊢
  intro otb hm
  rcases List.mem_or_eq_of_mem_set hm with h1 | h2
  · by_cases hr : tbs.length ≤ idx
    · rw [if_pos hr] at h1
      rcases List.mem_append.mp h1 with ha | hb2
      · exact hw otb ha
      · have := List.eq_of_mem_replicate hb2
        subst this
        rfl
    · rw [if_neg hr] at h1
      exact hw otb h1
  · subst h2
    simpa [wfTBB, byteSum] using hb

/-! ### Well-formedness of the block tbExec installs -/

theorem disassemble_offsets_le (decode : Decoder) (isArm : Bool)
    (tb : TranslationBlock) (hmc : tb.mcInsts = [])
    (hoff : tb.vaddrOffsets = []) :
    (disassemble decode isArm tb).vaddrOffsets.length ≤
      byteSum tb.rawInsts := by
  unfold disassemble
  rw [if_pos (by simp [hmc])]
  have := disassembleGo_offsets_le decode
    (if isArm then tb.vaddr - tb.vaddr % 2 else tb.vaddr) tb.rawInsts 0 0
    (if isArm then tb.vaddr - tb.vaddr % 2 else tb.vaddr) tb
  rw [hoff] at this
  simpa using this

theorem disassembleGo_len_eq (decode : Decoder) (startV : Nat)
    (raws : List (List Nat)) :
    ∀ (rawIdx skewOff vaddrBase : Nat) (tb : TranslationBlock),
      tb.mcInsts.length = tb.vaddrOffsets.length →
      (disassembleGo decode startV raws rawIdx skewOff vaddrBase
        tb).mcInsts.length =
      (disassembleGo decode startV raws rawIdx skewOff vaddrBase
        tb).vaddrOffsets.length := by
  induction raws with
  | nil => intro rawIdx skewOff vaddrBase tb h; exact h
  | cons raw rest ih =>
    intro rawIdx skewOff vaddrBase tb h
    simp only [disassembleGo]
    apply ih
    by_cases hz : 0 < skewOff <;> simp [hz, h]

theorem disassemble_len_eq (decode : Decoder) (isArm : Bool)
    (tb : TranslationBlock) (h : tb.mcInsts.length = tb.vaddrOffsets.length) :
    (disassemble decode isArm tb).mcInsts.length =
      (disassemble decode isArm tb).vaddrOffsets.length := by
  unfold disassemble
  by_cases hmc : tb.mcInsts.isEmpty
  · rw [if_pos hmc]
    exact disassembleGo_len_eq decode _ tb.rawInsts 0 0 _ tb h
  · rw [if_neg hmc]
    exact h

theorem disassemble_raw (decode : Decoder) (isArm : Bool)
    (tb : TranslationBlock) :
    (disassemble decode isArm tb).rawInsts = tb.rawInsts := by
  unfold disassemble
  by_cases hmc : tb.mcInsts.isEmpty
  · rw [if_pos hmc]
    exact disassembleGo_raw decode _ tb.rawInsts 0 0 _ tb
  · rw [if_neg hmc]

theorem tbExecTB_wf (decode : Decoder) (isArm : Bool)
    (tb0 : TranslationBlock) (pc : Nat) (h : wfTBB tb0 = true) :
    wfTBB (tbExecTB decode isArm tb0 pc) = true := by
  unfold tbExecTB
  by_cases hmc : tb0.mcInsts.isEmpty
  · rw [if_pos hmc]
    have hmc' : tb0.mcInsts = [] := by simpa [List.isEmpty_iff] using hmc
    simp only [wfTBB, Bool.and_eq_true, decide_eq_true_eq, Bool.or_eq_true,
      Bool.not_eq_true', List.isEmpty_eq_false] at h
    have hoff : tb0.vaddrOffsets = [] := by
      rcases h.2 with h2 | h2
      · exact absurd hmc' (by simpa [List.isEmpty_iff] using h2)
      · simpa [List.isEmpty_iff] using h2.1
    have hbs : byteSum tb0.rawInsts ≤ 65535 := by
      rcases h.2 with h2 | h2
      · exact absurd hmc' (by simpa [List.isEmpty_iff] using h2)
      · simpa using h2.2
    set tbp : TranslationBlock := { tb0 with vaddr := pc } with htbp
    have hple : (disassemble decode isArm tbp).vaddrOffsets.length ≤
        byteSum tbp.rawInsts :=
      disassemble_offsets_le decode isArm tbp (by simp [htbp, hmc'])
        (by simp [htbp, hoff])
    have hplen : (disassemble decode isArm tbp).mcInsts.length =
        (disassemble decode isArm tbp).vaddrOffsets.length :=
      disassemble_len_eq decode isArm tbp (by simp [htbp, hmc', hoff])
    have hpraw : (disassemble decode isArm tbp).rawInsts = tbp.rawInsts :=
      disassemble_raw decode isArm tbp
    have hwf : wfTBB (disassemble decode isArm tbp) = true := by
      simp only [wfTBB, Bool.and_eq_true, decide_eq_true_eq, Bool.or_eq_true,
        Bool.not_eq_true', List.isEmpty_eq_false]
      constructor
      · have : byteSum tbp.rawInsts = byteSum tb0.rawInsts := by
          simp [htbp]
        omega
      · by_cases hne : (disassemble decode isArm tbp).mcInsts = []
        · refine Or.inr ⟨?_, ?_⟩
          · have h0 : (disassemble decode isArm tbp).vaddrOffsets.length = 0 := by
              rw [← hplen, hne]
              rfl
            have hnil : (disassemble decode isArm tbp).vaddrOffsets = [] :=
              List.eq_nil_of_length_eq_zero h0
            rw [hnil]
            rfl
          · have heq : byteSum tbp.rawInsts = byteSum tb0.rawInsts := by
              simp [htbp]
            rw [hpraw, heq]
            exact hbs
        · exact Or.inl hne
    cases isArm with
    | true => simpa [wfTBB] using hwf
    | false => simpa using hwf
  · rw [if_neg hmc]
    exact h

/-! ### Queue preservation through the producer and the fetch loop -/

theorem tbExecGo_tbs (decode : Decoder) (isArm : Bool) (st : BrokerState)
    (idx pc : Nat) (mas : List FbMemAccess) (tb0 : TranslationBlock) :
    (tbExecGo decode isArm st idx pc mas tb0).tbs =
      st.tbs.set idx (some (tbExecTB decode isArm tb0 pc)) := by
  simp only [tbExecGo]
  split <;> rfl

theorem tbExecGo_queue (decode : Decoder) (isArm : Bool) (st : BrokerState)
    (idx pc : Nat) (mas : List FbMemAccess) (tb0 : TranslationBlock) :
    (tbExecGo decode isArm st idx pc mas tb0).tbQueue = st.tbQueue ∨
    ∃ c, (tbExecGo decode isArm st idx pc mas tb0).tbQueue =
      st.tbQueue ++ [⟨idx,
        (tbExecRC (tbExecSt1 decode isArm st idx pc tb0)
          (tbExecTB decode isArm tb0 pc)).fst,
        (tbExecRC (tbExecSt1 decode isArm st idx pc tb0)
          (tbExecTB decode isArm tb0 pc)).snd.fst,
        (tbExecRC (tbExecSt1 decode isArm st idx pc tb0)
          (tbExecTB decode isArm tb0 pc)).snd.snd.fst, c⟩] ∧
      (tbExecRC (tbExecSt1 decode isArm st idx pc tb0)
        (tbExecTB decode isArm tb0 pc)).fst ≠
      (tbExecRC (tbExecSt1 decode isArm st idx pc tb0)
        (tbExecTB decode isArm tb0 pc)).snd.fst := by
  simp only [tbExecGo]
  by_cases hbe :
      (tbExecRC (tbExecSt1 decode isArm st idx pc tb0)
        (tbExecTB decode isArm tb0 pc)).fst =
      (tbExecRC (tbExecSt1 decode isArm st idx pc tb0)
        (tbExecTB decode isArm tb0 pc)).snd.fst
  · rw [if_pos hbe]
    exact Or.inl rfl
  · rw [if_neg hbe]
    exact Or.inr ⟨_, rfl, hbe⟩

theorem wfTBB_offsets_le (tb : TranslationBlock) (h : wfTBB tb = true) :
    tb.vaddrOffsets.length ≤ 65535 := by
  simp only [wfTBB, Bool.and_eq_true, decide_eq_true_eq] at h
  exact h.1

theorem fetchLoop_preserves (tbs : List (Option TranslationBlock))
    (P : TBSlice → Prop)
    (hP : ∀ (cur : TBSlice) (tb : TranslationBlock) (n : Nat),
      tbs.getD cur.index none = some tb → P cur →
      n < min tb.mcInsts.length (cur.endIdx - cur.beginIdx) → 0 < n →
      P ((cur.split ((cur.beginIdx + n) % 65536)).snd)) :
    ∀ (fuel sz : Nat) (queue sel q : List TBSlice),
      fetchLoop tbs fuel sz queue = some (sel, q) →
      (∀ x ∈ queue, P x) → ∀ x ∈ q, P x := by
  intro fuel
  induction fuel with
  | zero =>
    intro sz queue sel q h
    simp [fetchLoop] at h
  | succ n ih =>
    intro sz queue sel q h hall
    cases sz with
    | zero =>
      simp only [fetchLoop, Option.some.injEq, Prod.mk.injEq] at h
      rw [← h.2]
      exact hall
    | succ s =>
      cases queue with
      | nil =>
        simp only [fetchLoop, Option.some.injEq, Prod.mk.injEq] at h
        rw [← h.2]
        intro x hx
        exact absurd hx (by simp)
      | cons cur rest =>
        simp only [fetchLoop] at h
        cases hget : tbs.getD cur.index none with
        | none =>
          rw [hget] at h
          exact ih _ _ _ _ h hall
        | some tb =>
          rw [hget] at h
          simp only at h
          by_cases hlt :
              s + 1 < min tb.mcInsts.length (cur.endIdx - cur.beginIdx)
          · rw [if_pos hlt] at h
            simp only [Option.some.injEq, Prod.mk.injEq] at h
            rw [← h.2]
            intro x hx
            rcases List.mem_cons.mp hx with h1 | h2
            · subst h1
              exact hP cur tb (s + 1) hget (hall cur (by simp)) hlt
                (by omega)
            · exact hall x (List.mem_cons_of_mem _ h2)
          · rw [if_neg hlt] at h
            by_cases hreg : cur.region.isSome
            · rw [if_pos hreg] at h
              simp only [Option.some.injEq, Prod.mk.injEq] at h
              rw [← h.2]
              intro x hx
              exact hall x (List.mem_cons_of_mem _ hx)
            · rw [if_neg hreg] at h
              cases hrec : fetchLoop tbs n
                  (s + 1 - min tb.mcInsts.length
                    (cur.endIdx - cur.beginIdx)) rest with
              | none => rw [hrec] at h; exact absurd h (by simp)
              | some pr =>
                obtain ⟨sel2, q2⟩ := pr
                rw [hrec] at h
                simp only [Option.some.injEq, Prod.mk.injEq] at h
                rw [← h.2]
                exact ih _ _ _ _ hrec
                  (fun x hx => hall x (List.mem_cons_of_mem _ hx))

theorem fetchLoop_isSome (tbs : List (Option TranslationBlock)) :
    ∀ (fuel sz : Nat) (queue : List TBSlice),
      (∀ x ∈ queue, registeredB tbs x = true) →
      queue.length < fuel →
      (fetchLoop tbs fuel sz queue).isSome = true := by
  intro fuel
  induction fuel with
  | zero =>
    intro sz queue hall hlen
    omega
  | succ n ih =>
    intro sz queue hall hlen
    cases sz with
    | zero => rfl
    | succ s =>
      cases queue with
      | nil => rfl
      | cons cur rest =>
        simp only [fetchLoop]
        cases hget : tbs.getD cur.index none with
        | none =>
          have := hall cur (by simp)
          rw [registeredB, hget] at this
          exact absurd this (by simp)
        | some tb =>
          simp only
          by_cases hlt :
              s + 1 < min tb.mcInsts.length (cur.endIdx - cur.beginIdx)
          · rw [if_pos hlt]
            rfl
          · rw [if_neg hlt]
            by_cases hreg : cur.region.isSome
            · rw [if_pos hreg]
              rfl
            · rw [if_neg hreg]
              have hrest := ih
                (s + 1 - min tb.mcInsts.length (cur.endIdx - cur.beginIdx))
                rest (fun x hx => hall x (List.mem_cons_of_mem _ hx))
                (by simp at hlen; omega)
              cases hrec : fetchLoop tbs n
                  (s + 1 - min tb.mcInsts.length
                    (cur.endIdx - cur.beginIdx)) rest with
              | none => rw [hrec] at hrest; exact absurd hrest (by simp)
              | some pr => obtain ⟨sel2, q2⟩ := pr; rfl

theorem fetchRegion_cases (st : BrokerState) (bufLen : Nat) (size : Int)
    (o : FetchOutcome) (h : fetchRegion st bufLen size = some o) :
    o.stateAfter = st ∨
    ∃ sel q,
      fetchLoop st.tbs
        ((if size < 0 ∨ (bufLen : Int) < size then bufLen
          else size.toNat) + st.tbQueue.length + 1)
        (if size < 0 ∨ (bufLen : Int) < size then bufLen else size.toNat)
        st.tbQueue = some (sel, q) ∧
      o.stateAfter = { st with
        tbQueue := q
        totalNumTraces := (deliverSlices st.tbs sel st.totalNumTraces
          (if size < 0 ∨ (bufLen : Int) < size then bufLen
            else size.toNat)).seq } := by
  unfold fetchRegion at h
  by_cases h0 : size = 0
  · rw [if_pos h0] at h
    simp only [Option.some.injEq] at h
    rw [← h]
    exact Or.inl rfl
  · rw [if_neg h0] at h
    simp only at h
    by_cases hemp : st.tbQueue.isEmpty
    · rw [if_pos hemp] at h
      by_cases heos : st.isEndOfStream
      · rw [if_pos heos] at h
        simp only [Option.some.injEq] at h
        rw [← h]
        exact Or.inl rfl
      · rw [if_neg heos] at h
        exact absurd h (by simp)
    · rw [if_neg hemp] at h
      cases hloop : fetchLoop st.tbs
          ((if size < 0 ∨ (bufLen : Int) < size then bufLen
            else size.toNat) + st.tbQueue.length + 1)
          (if size < 0 ∨ (bufLen : Int) < size then bufLen
            else size.toNat) st.tbQueue with
      | none => rw [hloop] at h; exact absurd h (by simp)
      | some pr =>
        obtain ⟨sel, q⟩ := pr
        rw [hloop] at h
        simp only [Option.some.injEq] at h
        rw [← h]
        exact Or.inr ⟨sel, q, rfl, rfl⟩

theorem handleEvent_registered (decode : Decoder) (isArm : Bool)
    (st : BrokerState) (ev : Event) (h : regQueueB st = true) :
    regQueueB (handleEvent decode isArm st ev) = true := by
  cases ev with
  | metadata la => exact h
  | translatedBlock idx insts =>
    rw [regQueueB, List.all_eq_true] at h ⊢
    intro x hx
    have hx2 := h x hx
    rw [registeredB] at hx2
    show ((addTB st.tbs idx insts).getD x.index none).isSome = true
    rw [addTB_getD]
    by_cases hj : idx = x.index
    · rw [if_pos hj]
      rfl
    · rw [if_neg hj]
      exact hx2
  | execTB idx pc mas =>
    by_cases hs : idx = sentinelIdx ∧ pc = sentinelPC
    · show regQueueB (tbExec decode isArm st idx pc mas) = true
      rw [tbExec_eq_of_sentinel decode isArm st idx pc mas hs]
      exact h
    · cases hget : st.tbs.getD idx none with
      | none =>
        show regQueueB (tbExec decode isArm st idx pc mas) = true
        rw [tbExec_eq_of_invalid decode isArm st idx pc mas hs hget]
        exact h
      | some tb0 =>
        show regQueueB (tbExec decode isArm st idx pc mas) = true
        rw [tbExec_eq_of_some decode isArm st idx pc mas tb0 hs hget]
        rw [regQueueB, List.all_eq_true] at h ⊢
        intro x hx
        show ((tbExecGo decode isArm st idx pc mas tb0).tbs.getD
          x.index none).isSome = true
        rw [tbExecGo_tbs, getD_set_some]
        rcases tbExecGo_queue decode isArm st idx pc mas tb0 with
          hq | ⟨c, hq, hne⟩
        · rw [hq] at hx
          have hx2 := h x hx
          rw [registeredB] at hx2
          by_cases hc : idx = x.index ∧ idx < st.tbs.length
          · rw [if_pos hc]
            rfl
          · rw [if_neg hc]
            exact hx2
        · rw [hq] at hx
          rcases List.mem_append.mp hx with h1 | h2
          · have hx2 := h x h1
            rw [registeredB] at hx2
            by_cases hc : idx = x.index ∧ idx < st.tbs.length
            · rw [if_pos hc]
              rfl
            · rw [if_neg hc]
              exact hx2
          · have hx2 := List.mem_singleton.mp h2
            subst hx2
            show (if idx = idx ∧ idx < st.tbs.length then
                some (tbExecTB decode isArm tb0 pc)
              else st.tbs.getD idx none).isSome = true
            by_cases hc : idx < st.tbs.length
            · rw [if_pos ⟨rfl, hc⟩]
              rfl
            · rw [if_neg (fun hcc => hc hcc.2)]
              rw [hget]
              rfl

theorem handleEvent_BE (decode : Decoder) (isArm : Bool) (st : BrokerState)
    (ev : Event) (hq : queueBEB st = true) (hw : wfTBsB st.tbs = true)
    (hev : wfEventB ev = true) :
    queueBEB (handleEvent decode isArm st ev) = true ∧
    wfTBsB (handleEvent decode isArm st ev).tbs = true := by
  cases ev with
  | metadata la => exact ⟨hq, hw⟩
  | translatedBlock idx insts =>
    refine ⟨hq, ?_⟩
    show wfTBsB (addTB st.tbs idx insts) = true
    exact wfTBs_addTB st.tbs idx insts hw (by simpa [wfEventB] using hev)
  | execTB idx pc mas =>
    by_cases hs : idx = sentinelIdx ∧ pc = sentinelPC
    · constructor
      · show queueBEB (tbExec decode isArm st idx pc mas) = true
        rw [tbExec_eq_of_sentinel decode isArm st idx pc mas hs]
        exact hq
      · show wfTBsB (tbExec decode isArm st idx pc mas).tbs = true
        rw [tbExec_eq_of_sentinel decode isArm st idx pc mas hs]
        exact hw
    · cases hget : st.tbs.getD idx none with
      | none =>
        constructor
        · show queueBEB (tbExec decode isArm st idx pc mas) = true
          rw [tbExec_eq_of_invalid decode isArm st idx pc mas hs hget]
          exact hq
        · show wfTBsB (tbExec decode isArm st idx pc mas).tbs = true
          rw [tbExec_eq_of_invalid decode isArm st idx pc mas hs hget]
          exact hw
      | some tb0 =>
        have hwtb0 : wfTBB tb0 = true := wfTBs_getD st.tbs idx tb0 hw hget
        have hwtb : wfTBB (tbExecTB decode isArm tb0 pc) = true :=
          tbExecTB_wf decode isArm tb0 pc hwtb0
        constructor
        · show queueBEB (tbExec decode isArm st idx pc mas) = true
          rw [tbExec_eq_of_some decode isArm st idx pc mas tb0 hs hget]
          rw [queueBEB, List.all_eq_true] at hq ⊢
          rcases tbExecGo_queue decode isArm st idx pc mas tb0 with
            hq2 | ⟨c, hq2, hne⟩
          · rw [hq2]
            exact hq
          · rw [hq2]
            intro x hx
            rcases List.mem_append.mp hx with h1 | h2
            · exact hq x h1
            · have hx2 := List.mem_singleton.mp h2
              subst hx2
              rcases tbExecRC_be
                  (tbExecSt1 decode isArm st idx pc tb0)
                  (tbExecTB decode isArm tb0 pc)
                  (wfTBB_offsets_le _ hwtb) with hbe | ⟨hlt, hle⟩
              · exact absurd hbe hne
              · simp only [Bool.and_eq_true, decide_eq_true_eq]
                exact ⟨hlt, hle⟩
        · show wfTBsB (tbExec decode isArm st idx pc mas).tbs = true
          rw [tbExec_eq_of_some decode isArm st idx pc mas tb0 hs hget,
            tbExecGo_tbs]
          exact wfTBs_set st.tbs idx _ hw hwtb

/-! ### C1 -/

/-- C1 (amended): the lower half of the queued-slice bounds invariant
holds: every slice queued by tbExec, and every slice a fetch-side split
leaves in the queue, satisfies `begin_idx < end_idx ≤ 0xFFFF` (given that
registered blocks fit the uint16_t index space).  The upper bound
`end_idx ≤ |decoded|` does NOT hold in general: tbExec queues slices with
the sentinel end index 0xFFFF whenever no region end terminates the
slice, and the fetch engine clamps to the decoded length instead. -/
theorem C1_slice_bounds :
    (∀ (decode : Decoder) (isArm : Bool) (st : BrokerState) (ev : Event),
      queueBEB st = true → wfTBsB st.tbs = true → wfEventB ev = true →
      queueBEB (handleEvent decode isArm st ev) = true ∧
      wfTBsB (handleEvent decode isArm st ev).tbs = true) ∧
    (∀ (st : BrokerState) (bufLen : Nat) (size : Int) (o : FetchOutcome),
      fetchRegion st bufLen size = some o → queueBEB st = true →
      queueBEB o.stateAfter = true) := by
  constructor
  · exact handleEvent_BE
  · intro st bufLen size o h hq
    rcases fetchRegion_cases st bufLen size o h with h1 | ⟨sel, q, hloop, h2⟩
    · rw [h1]
      exact hq
    · rw [h2]
      rw [queueBEB, List.all_eq_true] at hq ⊢
      have hpres := fetchLoop_preserves st.tbs
        (fun s => s.beginIdx < s.endIdx ∧ s.endIdx ≤ 65535)
        (by
          intro cur tb n hget hcur hn hpos
          have h1 : cur.beginIdx + n < cur.endIdx := by
            have := Nat.lt_of_lt_of_le hn (Nat.min_le_right _ _)
            omega
          have h2 : (cur.beginIdx + n) % 65536 = cur.beginIdx + n :=
            Nat.mod_eq_of_lt (by omega)
          simp only [TBSlice.split]
          constructor
          · omega
          · exact hcur.2)
        _ _ _ _ _ hloop
        (by
          intro x hx
          have := hq x hx
          simp only [Bool.and_eq_true, decide_eq_true_eq] at this
          exact this)
      intro x hx
      have := hpres x hx
      simp only [Bool.and_eq_true, decide_eq_true_eq]
      exact this

/-- C1 (witness): executing a registered two-instruction block from a
well-formed state keeps the amended bounds invariant. -/
theorem C1_witness :
    (queueBEB exStateC1b = true ∧ wfTBsB exStateC1b.tbs = true ∧
      wfEventB (.execTB 0 100 []) = true) ∧
    queueBEB (handleEvent dec1 false exStateC1b (.execTB 0 100 [])) = true :=
  ⟨⟨by decide, by decide, by decide⟩,
    (C1_slice_bounds.1 dec1 false exStateC1b (.execTB 0 100 [])
      (by decide) (by decide) (by decide)).1⟩

/-! ### C9 -/

/-- C9 (amended): every queued slice refers to a slot of the TB cache
that is within bounds and registered (an `isSome` entry); this is
preserved by every receiver event and by every fetch.  The drain loop
makes progress on such queues: with fuel exceeding the queue length the
selection loop returns (pops shrink the queue, a split ends the
round).  The stronger original claim fails: the decoded sequence of a
queued slice's block may be EMPTY when disassembly failed, as the
counterexample shows; such slices are popped with zero length. -/
theorem C9_registered_invariant :
    (∀ (decode : Decoder) (isArm : Bool) (st : BrokerState) (ev : Event),
      regQueueB st = true →
      regQueueB (handleEvent decode isArm st ev) = true) ∧
    (∀ (st : BrokerState) (bufLen : Nat) (size : Int) (o : FetchOutcome),
      fetchRegion st bufLen size = some o → regQueueB st = true →
      regQueueB o.stateAfter = true) ∧
    (∀ (tbs : List (Option TranslationBlock)) (fuel sz : Nat)
      (queue : List TBSlice),
      (∀ x ∈ queue, registeredB tbs x = true) → queue.length < fuel →
      (fetchLoop tbs fuel sz queue).isSome = true) := by
  refine ⟨handleEvent_registered, ?_, fetchLoop_isSome⟩
  intro st bufLen size o h hq
  rcases fetchRegion_cases st bufLen size o h with h1 | ⟨sel, q, hloop, h2⟩
  · rw [h1]
    exact hq
  · rw [h2]
    rw [regQueueB, List.all_eq_true] at hq ⊢
    have hpres := fetchLoop_preserves st.tbs
      (fun s => registeredB st.tbs s = true)
      (by
        intro cur tb n hget hcur hn hpos
        simp only [TBSlice.split, registeredB] at hcur ⊢
        exact hcur)
      _ _ _ _ _ hloop hq
    intro x hx
    exact hpres x hx

/-- C9 (witness): registration invariant and loop progress at concrete
inputs. -/
theorem C9_witness :
    (regQueueB exStateC1b = true ∧
      regQueueB (handleEvent dec1 false exStateC1b (.execTB 0 100 [])) =
        true) ∧
    ((∀ x ∈ [(⟨0, 0, 2, none, none⟩ : TBSlice)],
        registeredB exTBsC7 x = true) ∧
      (fetchLoop exTBsC7 2 1 [⟨0, 0, 2, none, none⟩]).isSome = true) :=
  ⟨⟨by decide,
      C9_registered_invariant.1 dec1 false exStateC1b (.execTB 0 100 [])
        (by decide)⟩,
    ⟨by decide,
      C9_registered_invariant.2.2 exTBsC7 2 1 [⟨0, 0, 2, none, none⟩]
        (by decide) (by decide)⟩⟩

/-! ### The fetch round trip (C7) -/

theorem wfSliceB_spec (tbs : List (Option TranslationBlock)) (s : TBSlice)
    (h : wfSliceB tbs s = true) :
    ∃ tb, tbs.getD s.index none = some tb ∧ s.beginIdx < s.endIdx ∧
      s.endIdx ≤ tb.mcInsts.length ∧ s.endIdx ≤ 65535 ∧ s.region = none := by
  unfold wfSliceB at h
  cases hget : tbs.getD s.index none with
  | none => rw [hget] at h; exact absurd h (by simp)
  | some tb =>
    rw [hget] at h
    simp only [Bool.and_eq_true, decide_eq_true_eq,
      Option.isNone_iff_eq_none] at h
    exact ⟨tb, rfl, h.1.1.1, h.1.1.2, h.1.2, h.2⟩

theorem getD_eq_getElem_of_lt (mc : List Inst) (i : Nat)
    (h : i < mc.length) : mc.getD i 0 = mc[i] := by
  rw [List.getD_eq_getElem?_getD, List.getElem?_eq_getElem h]
  rfl

theorem queueInsts_nil (tbs : List (Option TranslationBlock)) :
    queueInsts tbs [] = [] := rfl

theorem queueInsts_cons (tbs : List (Option TranslationBlock)) (s : TBSlice)
    (rest : List TBSlice) :
    queueInsts tbs (s :: rest) = sliceInsts tbs s ++ queueInsts tbs rest := by
  simp [queueInsts]

theorem sliceInsts_length (tbs : List (Option TranslationBlock))
    (s : TBSlice) (tb : TranslationBlock)
    (hget : tbs.getD s.index none = some tb)
    (hel : s.endIdx ≤ tb.mcInsts.length) :
    (sliceInsts tbs s).length = s.endIdx - s.beginIdx := by
  unfold sliceInsts
  rw [hget]
  simp only [Option.getD_some, List.length_drop, List.length_take]
  omega

theorem deliverSlice_spec (mc : List Inst) (endI : Nat)
    (hle : endI ≤ mc.length) :
    ∀ (sz i seq : Nat) (chain : MemoryAccessChain), i ≤ endI →
      (deliverSlice mc endI i seq sz chain).insts =
        ((mc.take endI).drop i).take sz ∧
      (deliverSlice mc endI i seq sz chain).sizeLeft = sz - (endI - i) := by
  intro sz
  induction sz with
  | zero =>
    intro i seq chain hi
    exact ⟨by simp [deliverSlice], by simp [deliverSlice]⟩
  | succ n ih =>
    intro i seq chain hi
    by_cases hend : i = endI
    · unfold deliverSlice
      rw [if_pos hend]
      constructor
      · show ([] : List Inst) = ((mc.take endI).drop i).take (n + 1)
        rw [hend, List.drop_eq_nil_of_le (by rw [List.length_take]; omega)]
        rfl
      · show n + 1 = n + 1 - (endI - i)
        omega
    · have hilt : i < endI := by omega
      have himc : i < mc.length := by omega
      have hitake : i < (mc.take endI).length := by
        rw [List.length_take]
        omega
      have key : ∀ ch' : MemoryAccessChain,
          (deliverSlice mc endI (i + 1) (seq + 1) n ch').insts =
            ((mc.take endI).drop (i + 1)).take n ∧
          (deliverSlice mc endI (i + 1) (seq + 1) n ch').sizeLeft =
            n - (endI - (i + 1)) :=
        fun ch' => ih (i + 1) (seq + 1) ch' (by omega)
      have harith : n + 1 - (endI - i) = n - (endI - (i + 1)) := by omega
      cases chain with
      | nil =>
        unfold deliverSlice
        rw [if_neg hend]
        simp only
        constructor
        · rw [getD_eq_getElem_of_lt mc i himc, (key []).1,
            List.drop_eq_getElem_cons hitake, List.getElem_take,
            List.take_succ_cons]
        · rw [(key []).2, harith]
      | cons e rest =>
        obtain ⟨j, ma⟩ := e
        by_cases hj : j = i
        · unfold deliverSlice
          rw [if_neg hend]
          simp only [if_pos hj]
          constructor
          · rw [getD_eq_getElem_of_lt mc i himc, (key rest).1,
              List.drop_eq_getElem_cons hitake, List.getElem_take,
              List.take_succ_cons]
          · rw [(key rest).2, harith]
        · unfold deliverSlice
          rw [if_neg hend]
          simp only [if_neg hj]
          constructor
          · rw [getD_eq_getElem_of_lt mc i himc, (key ((j, ma) :: rest)).1,
              List.drop_eq_getElem_cons hitake, List.getElem_take,
              List.take_succ_cons]
          · rw [(key ((j, ma) :: rest)).2, harith]

theorem deliverSlices_spec (tbs : List (Option TranslationBlock)) :
    ∀ (sel : List TBSlice) (seq sz : Nat),
      (∀ x ∈ sel, wfSliceB tbs x = true) →
      (queueInsts tbs sel).length ≤ sz →
      (deliverSlices tbs sel seq sz).insts = queueInsts tbs sel ∧
      (deliverSlices tbs sel seq sz).sizeLeft =
        sz - (queueInsts tbs sel).length := by
  intro sel
  induction sel with
  | nil =>
    intro seq sz hall hle
    exact ⟨rfl, by simp [deliverSlices, queueInsts_nil]⟩
  | cons s rest ih =>
    intro seq sz hall hle
    obtain ⟨tb, hget, hbe, hel, _, _⟩ :=
      wfSliceB_spec tbs s (hall s (by simp))
    have hmc : (tbs.getD s.index none).getD default = tb := by
      rw [hget]
      rfl
    have hmin : min tb.mcInsts.length s.endIdx = s.endIdx :=
      Nat.min_eq_right hel
    have hslen : (sliceInsts tbs s).length = s.endIdx - s.beginIdx :=
      sliceInsts_length tbs s tb hget hel
    rw [queueInsts_cons] at hle ⊢
    rw [List.length_append] at hle
    have hsz1 : s.endIdx - s.beginIdx ≤ sz := by omega
    have hone := deliverSlice_spec tb.mcInsts s.endIdx hel sz s.beginIdx seq
      (s.memoryAccesses.getD []) (by omega)
    have hinst1 : (deliverSlice tb.mcInsts s.endIdx s.beginIdx seq sz
        (s.memoryAccesses.getD [])).insts = sliceInsts tbs s := by
      rw [hone.1]
      unfold sliceInsts
      rw [hget]
      simp only [Option.getD_some]
      apply List.take_of_length_le
      rw [List.length_drop, List.length_take]
      omega
    have hsz2 : (deliverSlice tb.mcInsts s.endIdx s.beginIdx seq sz
        (s.memoryAccesses.getD [])).sizeLeft =
        sz - (s.endIdx - s.beginIdx) := hone.2
    unfold deliverSlices
    simp only [hmc, hmin]
    have hih := ih
      (deliverSlice tb.mcInsts s.endIdx s.beginIdx seq sz
        (s.memoryAccesses.getD [])).seq
      (deliverSlice tb.mcInsts s.endIdx s.beginIdx seq sz
        (s.memoryAccesses.getD [])).sizeLeft
      (fun x hx => hall x (List.mem_cons_of_mem _ hx))
      (by rw [hsz2]; omega)
    constructor
    · rw [hinst1, hih.1]
    · rw [hih.2, hsz2, List.length_append, hslen]
      omega

theorem take_drop_take (mc : List Inst) (B E n : Nat) (h : B + n ≤ E) :
    ((mc.take E).drop B).take n = (mc.take (B + n)).drop B := by
  rw [List.take_drop, List.take_take, Nat.min_eq_left h]

theorem fetchLoop_spec (tbs : List (Option TranslationBlock)) :
    ∀ (fuel sz : Nat) (queue : List TBSlice),
      (∀ x ∈ queue, wfSliceB tbs x = true) →
      queue.length < fuel →
      ∃ sel q, fetchLoop tbs fuel sz queue = some (sel, q) ∧
        queueInsts tbs sel = (queueInsts tbs queue).take sz ∧
        queueInsts tbs q = (queueInsts tbs queue).drop sz ∧
        (∀ x ∈ sel, wfSliceB tbs x = true) ∧
        (∀ x ∈ q, wfSliceB tbs x = true) := by
  intro fuel
  induction fuel with
  | zero =>
    intro sz queue hall hlen
    omega
  | succ n ih =>
    intro sz queue hall hlen
    cases sz with
    | zero =>
      exact ⟨[], queue, rfl, by simp [queueInsts_nil], by simp, by simp,
        hall⟩
    | succ s =>
      cases queue with
      | nil =>
        exact ⟨[], [], rfl, by simp [queueInsts_nil],
          by simp [queueInsts_nil], by simp, by simp⟩
      | cons cur rest =>
        obtain ⟨tb, hget, hbe, hel, he16, hregn⟩ :=
          wfSliceB_spec tbs cur (hall cur (by simp))
        have hmin : min tb.mcInsts.length (cur.endIdx - cur.beginIdx) =
            cur.endIdx - cur.beginIdx := Nat.min_eq_right (by omega)
        have hslen : (sliceInsts tbs cur).length =
            cur.endIdx - cur.beginIdx := sliceInsts_length tbs cur tb hget hel
        have hallrest : ∀ x ∈ rest, wfSliceB tbs x = true :=
          fun x hx => hall x (List.mem_cons_of_mem _ hx)
        by_cases hlt : s + 1 < cur.endIdx - cur.beginIdx
        · have hp : (cur.beginIdx + (s + 1)) % 65536 = cur.beginIdx + (s + 1) :=
            Nat.mod_eq_of_lt (by omega)
          have heq : fetchLoop tbs (n + 1) (s + 1) (cur :: rest) =
              some ([{ (cur.split ((cur.beginIdx + (s + 1)) % 65536)).fst
                  with region := none }],
                (cur.split ((cur.beginIdx + (s + 1)) % 65536)).snd :: rest) := by
            simp only [fetchLoop]
            rw [hget]
            simp only
            rw [hmin, if_pos hlt]
          refine ⟨_, _, heq, ?_, ?_, ?_, ?_⟩
          · rw [queueInsts_cons, queueInsts_cons, queueInsts_nil,
              List.append_nil, List.take_append_eq_append_take]
            have h0 : s + 1 - (sliceInsts tbs cur).length = 0 := by omega
            rw [h0, List.take_zero, List.append_nil]
            unfold sliceInsts
            simp only [TBSlice.split]
            rw [hget]
            simp only [Option.getD_some]
            rw [hp, take_drop_take tb.mcInsts cur.beginIdx cur.endIdx (s + 1)
              (by omega)]
          · rw [queueInsts_cons, queueInsts_cons,
              List.drop_append_eq_append_drop]
            have h0 : s + 1 - (sliceInsts tbs cur).length = 0 := by omega
            rw [h0, List.drop_zero]
            congr 1
            unfold sliceInsts
            simp only [TBSlice.split]
            rw [hget]
            simp only [Option.getD_some]
            rw [hp, List.drop_drop]
          · intro x hx
            have hx2 := List.mem_singleton.mp hx
            subst hx2
            unfold wfSliceB
            simp only [TBSlice.split]
            rw [hget]
            simp only [Bool.and_eq_true, decide_eq_true_eq,
              Option.isNone_none, and_true]
            rw [hp]
            refine ⟨⟨?_, ?_⟩, ?_⟩ <;> omega
          · intro x hx
            rcases List.mem_cons.mp hx with h1 | h2
            · subst h1
              unfold wfSliceB
              simp only [TBSlice.split]
              rw [hget]
              simp only [Bool.and_eq_true, decide_eq_true_eq]
              rw [hp]
              refine ⟨⟨⟨?_, ?_⟩, ?_⟩, ?_⟩
              · omega
              · omega
              · omega
              · rw [hregn]
                rfl
            · exact hallrest x h2
        · have hregf : cur.region.isSome = false := by
            rw [hregn]
            rfl
          have hlen2 : rest.length < n := by
            simp only [List.length_cons] at hlen
            omega
          obtain ⟨sel2, q2, heq2, hins2, hdrop2, hwsel2, hwq2⟩ :=
            ih (s + 1 - (cur.endIdx - cur.beginIdx)) rest hallrest hlen2
          have heq : fetchLoop tbs (n + 1) (s + 1) (cur :: rest) =
              some (cur :: sel2, q2) := by
            simp only [fetchLoop]
            rw [hget]
            simp only
            rw [hmin, if_neg hlt, if_neg (by rw [hregf]; simp), heq2]
          refine ⟨_, _, heq, ?_, ?_, ?_, ?_⟩
          · rw [queueInsts_cons, queueInsts_cons, hins2,
              List.take_append_eq_append_take]
            congr 1
            · symm
              apply List.take_of_length_le
              omega
            · rw [hslen]
          · rw [queueInsts_cons, hdrop2, List.drop_append_eq_append_drop,
              List.drop_eq_nil_of_le
                (show (sliceInsts tbs cur).length ≤ s + 1 by omega),
              List.nil_append, hslen]
          · intro x hx
            rcases List.mem_cons.mp hx with h1 | h2
            · exact hall x (by rw [h1]; exact List.mem_cons_self _ _)
            · exact hwsel2 x h2
          · exact hwq2

theorem fetchRegion_wf (st : BrokerState) (bufLen nn : Nat)
    (hn : 0 < nn) (hb : nn ≤ bufLen)
    (hwf : ∀ x ∈ st.tbQueue, wfSliceB st.tbs x = true)
    (hne : st.tbQueue ≠ []) :
    ∃ o, fetchRegion st bufLen (nn : Int) = some o ∧
      o.delivered = (queueInsts st.tbs st.tbQueue).take nn ∧
      queueInsts o.stateAfter.tbs o.stateAfter.tbQueue =
        (queueInsts st.tbs st.tbQueue).drop nn ∧
      (∀ x ∈ o.stateAfter.tbQueue, wfSliceB o.stateAfter.tbs x = true) ∧
      o.stateAfter.tbs = st.tbs ∧
      o.stateAfter.isEndOfStream = st.isEndOfStream := by
  have hsz : (if (nn : Int) < 0 ∨ (bufLen : Int) < (nn : Int) then bufLen
      else (nn : Int).toNat) = nn := by
    rw [if_neg (by push_neg; omega)]
    simp
  obtain ⟨sel, q, hloop, hins, hdrop, hwsel, hwq⟩ :=
    fetchLoop_spec st.tbs (nn + st.tbQueue.length + 1) nn st.tbQueue hwf
      (by omega)
  have hd := deliverSlices_spec st.tbs sel st.totalNumTraces nn hwsel
    (by rw [hins, List.length_take]; omega)
  have hfr : fetchRegion st bufLen (nn : Int) =
      some ⟨(nn : Int) -
          ((deliverSlices st.tbs sel st.totalNumTraces nn).sizeLeft : Int),
        (match sel.getLast? with
          | some last =>
            match last.region with
            | some r => RegionDescriptor.mk true r.description
            | none => RegionDescriptor.mk false ""
          | none => RegionDescriptor.mk false ""),
        { st with
          tbQueue := q
          totalNumTraces :=
            (deliverSlices st.tbs sel st.totalNumTraces nn).seq },
        (deliverSlices st.tbs sel st.totalNumTraces nn).insts,
        (deliverSlices st.tbs sel st.totalNumTraces nn).md⟩ := by
    unfold fetchRegion
    rw [if_neg (show ¬((nn : Int) = 0) by omega)]
    simp only
    rw [hsz, if_neg (show ¬(st.tbQueue.isEmpty = true) by
        simpa [List.isEmpty_iff] using hne), hloop]
  refine ⟨_, hfr, ?_, ?_, ?_, rfl, rfl⟩
  · show (deliverSlices st.tbs sel st.totalNumTraces nn).insts =
      (queueInsts st.tbs st.tbQueue).take nn
    rw [hd.1, hins]
  · show queueInsts st.tbs q = (queueInsts st.tbs st.tbQueue).drop nn
    exact hdrop
  · show ∀ x ∈ q, wfSliceB st.tbs x = true
    exact hwq

theorem fetchSingles_spec :
    ∀ (k : Nat) (st : BrokerState),
      (∀ x ∈ st.tbQueue, wfSliceB st.tbs x = true) →
      k ≤ (queueInsts st.tbs st.tbQueue).length →
      fetchSingles 1 k st = (queueInsts st.tbs st.tbQueue).take k := by
  intro k
  induction k with
  | zero =>
    intro st hwf hk
    simp [fetchSingles]
  | succ m ih =>
    intro st hwf hk
    have hne : st.tbQueue ≠ [] := by
      intro hq
      rw [hq] at hk
      simp [queueInsts_nil] at hk
    obtain ⟨o, hfr, hdel, hq, hwq, htbs, heos⟩ :=
      fetchRegion_wf st 1 1 (by omega) (Nat.le_refl 1) hwf hne
    rw [show (((1 : Nat)) : Int) = (1 : Int) from rfl] at hfr
    unfold fetchSingles
    rw [hfr]
    simp only
    rw [hdel]
    have hlen2 : m ≤
        (queueInsts o.stateAfter.tbs o.stateAfter.tbQueue).length := by
      rw [hq, List.length_drop]
      omega
    rw [ih o.stateAfter hwq hlen2, hq]
    rw [show m + 1 = 1 + m by omega, List.take_add]

/-- C7 (amended): when no queued slice carries a region-end marker and
every queued slice is within the decoded bounds of a registered block
(the well-formed queues the spec's own invariant describes), the
concatenation of N single-instruction fetches equals the delivery of one
fetch of N, both being exactly the queued instruction stream.  With a
region-end marker the equality fails (see the counterexample): the single
fetch stops at the region boundary while the repeated fetches continue
past it. -/
theorem C7_fetch_round_trip (st : BrokerState) (N : Nat)
    (hwf : ∀ x ∈ st.tbQueue, wfSliceB st.tbs x = true)
    (_heos : st.isEndOfStream = true)
    (hN : N = (queueInsts st.tbs st.tbQueue).length) :
    ∃ o, fetchRegion st N (N : Int) = some o ∧
      o.delivered = queueInsts st.tbs st.tbQueue ∧
      fetchSingles 1 N st = queueInsts st.tbs st.tbQueue := by
  cases hN0 : N with
  | zero =>
    have hq : queueInsts st.tbs st.tbQueue = [] :=
      List.eq_nil_of_length_eq_zero (by omega)
    refine ⟨⟨0, ⟨false, ""⟩, st, [], []⟩, ?_, by rw [hq], ?_⟩
    · unfold fetchRegion
      rw [if_pos (show (((0 : Nat)) : Int) = 0 from rfl)]
    · rw [hq]
      rfl
  | succ m =>
    subst hN0
    have hne : st.tbQueue ≠ [] := by
      intro hqq
      rw [hqq] at hN
      simp [queueInsts_nil] at hN
    obtain ⟨o, hfr, hdel, hq, hwq, htbs, heos2⟩ :=
      fetchRegion_wf st (m + 1) (m + 1) (by omega) (Nat.le_refl _) hwf hne
    refine ⟨o, hfr, ?_, ?_⟩
    · rw [hdel]
      exact List.take_of_length_le (by omega)
    · rw [fetchSingles_spec (m + 1) st hwf (by omega)]
      exact List.take_of_length_le (by omega)

/-- C7 (witness): the two-block queue without region markers: three
single fetches deliver the same stream as one fetch of three. -/
theorem C7_witness :
    ((∀ x ∈ exStateC7b.tbQueue, wfSliceB exStateC7b.tbs x = true) ∧
      exStateC7b.isEndOfStream = true ∧
      3 = (queueInsts exStateC7b.tbs exStateC7b.tbQueue).length) ∧
    (∃ o, fetchRegion exStateC7b 3 (((3 : Nat)) : Int) = some o ∧
      o.delivered = queueInsts exStateC7b.tbs exStateC7b.tbQueue ∧
      fetchSingles 1 3 exStateC7b =
        queueInsts exStateC7b.tbs exStateC7b.tbQueue) :=
  ⟨⟨by decide, by decide, by decide⟩,
    C7_fetch_round_trip exStateC7b 3 (by decide) (by decide) (by decide)⟩

end MCAD
